import Mathlib

/-!
# flatlib: a lazy flattening view over a sequence of sequences

A shallow embedding of `flatlib::flat_view` (src/flatten.cc).

* The nested structure the view borrows is a `Store α := List (List α)`: the
  outer sequence, whose elements are the inner sequences.
* An iterator into the outer sequence is its index (`Nat`).
* An iterator into an inner sequence is a `Cursor`: the index of the inner
  sequence it points into, and a position in it. Positions are integers, so
  that random-access arithmetic with negative offsets is total; going out of
  bounds is detected when the cursor is dereferenced.
* Operations that have undefined behaviour in C++ on some states (dereferencing
  an end iterator, dereferencing an empty `std::optional`) return `Option`, and
  `none` stands for that fault.
* A reference returned by a dereference is the cursor of the element when the
  underlying iterator designates storage of the range (containers). For an
  iterator that keeps its value in itself (`std::istream_iterator`) the
  reference is a `Ref` into the iterator object it was taken from, and reading
  through it after that object is destroyed is a fault (`rangeLoopOn`).
-/

namespace flatlib

/-! ## Iterator categories (compile-time part) -/

/-- The iterator category tags a range's iterator can carry. -/
inductive Category where
  | input
  | forward
  | bidirectional
  | random_access
  deriving DecidableEq, Repr

/-- Strength of a category: a larger rank refines a smaller one. -/
def Category.rank : Category → Nat
  | .input => 0
  | .forward => 1
  | .bidirectional => 2
  | .random_access => 3

/-- The shape of a `Range` type argument of `flat_view`: either a range whose
value type is not a range (with the category of its iterator), or a range of
ranges (with the category of the outer iterator and the shape of the value
type). -/
inductive RangeTy where
  | leaf (cat : Category)
  | nested (outer : Category) (elem : RangeTy)
  deriving DecidableEq, Repr

/-- The member `flat_view<Range>::iterator_category`.
Leaf specialisation (lines 20-21): the category of the underlying iterator.
Recursive specialisation (lines 146-149):
`conditional_t<is_same_v<subrange::iterator_category, input_iterator_tag>,
input_iterator_tag, forward_iterator_tag>`. -/
def iterator_category : RangeTy → Category
  | .leaf cat => cat
  | .nested _ elem =>
    if iterator_category elem = Category.input then Category.input else Category.forward

/-! ## The borrowed nested structure -/

/-- The nested structure a view ranges over. -/
abbrev Store (α : Type) := List (List α)

/-- An iterator into an inner sequence: which inner sequence, and where. It is
also what a dereference returns: a reference to that element. -/
structure Cursor where
  cont : Nat
  pos : Int
  deriving DecidableEq, Repr

/-- Reading through a reference; `none` when it does not designate an element. -/
def Store.read {α : Type} (s : Store α) (r : Cursor) : Option α :=
  if 0 ≤ r.pos then
    match s[r.cont]? with
    | some l => l[r.pos.toNat]?
    | none => none
  else none

/-- Writing through a reference: the shape of the structure is untouched. -/
def Store.write {α : Type} (s : Store α) (r : Cursor) (y : α) : Store α :=
  match s[r.cont]? with
  | some l => s.set r.cont (l.set r.pos.toNat y)
  | none => s

/-! ## Leaf specialisation (lines 10-130) -/

/-- The state of `flat_view<Range>` for a range of non-ranges. -/
structure LeafView where
  m_begin : Cursor
  m_end : Cursor
  deriving DecidableEq, Repr

namespace LeafView

/-- The constructor `flat_view(Range &range)` (lines 34-35), for the inner
sequence number `c` of the store. -/
def ofRange {α : Type} (s : Store α) (c : Nat) : LeafView :=
  { m_begin := ⟨c, 0⟩, m_end := ⟨c, ((s[c]?.getD []).length : Int)⟩ }

/-- The member `begin()` (line 37). -/
def begin (v : LeafView) : Cursor := v.m_begin

/-- The member `end()` (line 38). -/
def «end» (v : LeafView) : Cursor := v.m_end

/-- Dereferencing an underlying iterator: a reference to the element, or a
fault when the iterator does not point at an element. -/
def derefCursor {α : Type} (s : Store α) (c : Cursor) : Option Cursor :=
  match s.read c with
  | some _ => some c
  | none => none

/-- The member `operator*` (line 40): `*m_begin`. -/
def deref {α : Type} (s : Store α) (v : LeafView) : Option Cursor :=
  derefCursor s v.m_begin

/-- The member `operator++` (lines 42-48). -/
def incr (v : LeafView) : LeafView :=
  if v.m_begin ≠ v.m_end then { v with m_begin := ⟨v.m_begin.cont, v.m_begin.pos + 1⟩ }
  else v

/-- The member `operator--` (lines 57-62). -/
def decr (v : LeafView) : LeafView :=
  { v with m_begin := ⟨v.m_begin.cont, v.m_begin.pos - 1⟩ }

/-- The member `operator==` (lines 72-75). -/
def eq (v other : LeafView) : Bool :=
  (v.m_begin == v.m_end && other.m_begin == other.m_end) || v.m_begin == other.m_begin

/-- The member `operator-(flat_view const&)` (lines 83-87). -/
def diff (v other : LeafView) : Int :=
  v.m_begin.pos - other.m_begin.pos

/-- The member `operator+=` (lines 89-94). -/
def addAssign (v : LeafView) (n : Int) : LeafView :=
  { v with m_begin := ⟨v.m_begin.cont, v.m_begin.pos + n⟩ }

/-- The member `operator+(difference_type)` (lines 96-102). -/
def add (v : LeafView) (n : Int) : LeafView :=
  let copy := v
  copy.addAssign n

/-- The member `operator-=` (lines 110-115). -/
def subAssign (v : LeafView) (n : Int) : LeafView :=
  { v with m_begin := ⟨v.m_begin.cont, v.m_begin.pos - n⟩ }

/-- The member `operator-(difference_type)` (lines 117-123). -/
def sub (v : LeafView) (n : Int) : LeafView :=
  let copy := v
  copy.subAssign n

/-- The member `operator[]` (lines 125-129): `*(m_begin + n)`; the view itself is
not changed (the member is `const` and returns only the reference). -/
def index {α : Type} (s : Store α) (v : LeafView) (n : Int) : Option Cursor :=
  derefCursor s ⟨v.m_begin.cont, v.m_begin.pos + n⟩

/-- The call `std::next(view)` on a leaf view: one step forward of a copy. The
standard library steps a random-access iterator through `operator+=` and any
other through `operator++`; `viaPlus` says which of the two is used. -/
def next (viaPlus : Bool) (v : LeafView) : LeafView :=
  if viaPlus then v.addAssign 1 else v.incr

end LeafView

/-! ## Recursive specialisation (lines 132-245), over a sequence of sequences -/

/-- The state of `flat_view<Range>` for a range of ranges of non-ranges. -/
structure FlatView where
  m_range_end : Nat
  m_range_begin : Option Nat
  m_subrange : Option LeafView
  deriving DecidableEq, Repr

namespace FlatView

/-- The constructor `flat_view(Range &range)` (lines 165-169). -/
def ofRange {α : Type} (s : Store α) : FlatView :=
  { m_range_end := s.length, m_range_begin := some 0, m_subrange := none }

/-- The expression `**m_range_begin` handed to the constructor of the inner view
(`m_subrange.emplace(**m_range_begin)`): faults when the optional is empty or
the outer iterator does not point at an element. -/
def emplace {α : Type} (s : Store α) (rb : Option Nat) : Option LeafView :=
  match rb with
  | none => none
  | some i => if i < s.length then some (LeafView.ofRange s i) else none

/-- The member `operator*` (lines 171-177). It is `const`, but `m_subrange` is
`mutable`: the new state is returned with the reference. -/
def deref {α : Type} (s : Store α) (v : FlatView) : Option (FlatView × Cursor) :=
  let sub : Option LeafView :=
    match v.m_subrange with
    | some l => some l
    | none => emplace s v.m_range_begin
  match sub with
  | none => none
  | some l =>
    match LeafView.derefCursor s l.begin with
    | some r => some ({ v with m_subrange := some l }, r)
    | none => none

/-- The member `operator++` (lines 179-194). -/
def incr {α : Type} (viaPlus : Bool) (s : Store α) (v : FlatView) : Option FlatView :=
  match v.m_range_begin with
  | none => some v
  | some i =>
    if i = v.m_range_end then some v
    else
      let sub : Option LeafView :=
        match v.m_subrange with
        | some l => some (l.next viaPlus)
        | none => none
      let exhausted : Bool :=
        match sub with
        | none => true
        | some l => l.begin == l.end
      if exhausted then
        if i + 1 = v.m_range_end then
          some { v with m_range_begin := some (i + 1), m_subrange := sub }
        else
          match emplace s (some (i + 1)) with
          | some l => some { v with m_range_begin := some (i + 1), m_subrange := some l }
          | none => none
      else some { v with m_subrange := sub }

/-- The expression `(*m_range_begin)->begin()` of `operator==`: the begin
of the outer element under the outer iterator `i`; faults when `i` does not
point at an element. -/
def elemBegin {α : Type} (s : Store α) (i : Nat) : Option Cursor :=
  if i < s.length then some ⟨i, 0⟩ else none

/-- The member `operator==` (lines 208-235). -/
def eq {α : Type} (s : Store α) (v other : FlatView) : Option Bool :=
  match v.m_range_begin, other.m_range_begin with
  | some i, some j =>
    if i ≠ j then some false
    else
      match v.m_subrange, other.m_subrange with
      | some l, some r => some (l.begin == r.begin)
      | none, none => some true
      | some l, none =>
        match elemBegin s i with
        | some b => some (l.begin == b)
        | none => none
      | none, some r =>
        match elemBegin s j with
        | some b => some (r.begin == b)
        | none => none
  | some i, none => some (i == v.m_range_end || i == other.m_range_end)
  | none, some j => some (j == other.m_range_end)
  | none, none => some true

/-- The member `begin()` (line 237): a copy of the view. -/
def begin (v : FlatView) : FlatView := v

/-- The member `end()` (lines 239-244). -/
def «end» (v : FlatView) : FlatView :=
  { v with m_subrange := none, m_range_begin := none }

end FlatView

/-- The function `flat` (lines 247-250) on a range of ranges. -/
def flat {α : Type} (s : Store α) : FlatView := FlatView.ofRange s

/-! ## The range-based `for` loop over a view -/

/-- The loop `for (auto &el : view) body`, from the position `it` to the
position `e`: while `it != e`, bind `el` to `*it`, run the body, then `++it`.
The body may read and assign `el` and update its own state `σ`. One unit of
fuel is used by each evaluation of the loop condition; `none` is a fault or
fuel running out. -/
def rangeLoop {α σ : Type} (viaPlus : Bool) (body : α → σ → α × σ) :
    Nat → Store α → FlatView → FlatView → σ → Option (Store α × σ)
  | 0, _, _, _, _ => none
  | fuel + 1, s, it, e, acc =>
    match it.eq s e with
    | none => none
    | some true => some (s, acc)
    | some false =>
      match it.deref s with
      | none => none
      | some (it1, r) =>
        match s.read r with
        | none => none
        | some x =>
          match it1.incr viaPlus (s.write r (body x acc).1) with
          | none => none
          | some it2 => rangeLoop viaPlus body fuel (s.write r (body x acc).1) it2 e (body x acc).2

/-- The statement `for (auto &el : flatlib::flat(xs)) body`. -/
def rangeFor {α σ : Type} (viaPlus : Bool) (body : α → σ → α × σ) (fuel : Nat)
    (xs : Store α) (acc : σ) : Option (Store α × σ) :=
  rangeLoop viaPlus body fuel xs (flat xs).begin (flat xs).end acc

/-- A loop body that only reads: it appends the element to the output. -/
def emit {α : Type} (x : α) (out : List α) : α × List α := (x, out ++ [x])

/-- A loop body that only assigns: `el = f(el)`. -/
def assign {α : Type} (f : α → α) (x : α) (_u : Unit) : α × Unit := (f x, ())

/-! ## What a loop over the flattened view should compute -/

/-- Running a loop body over the elements of one sequence, left to right. -/
def sweep {α σ : Type} (body : α → σ → α × σ) : List α → σ → List α × σ
  | [], acc => ([], acc)
  | x :: l, acc =>
    ((body x acc).1 :: (sweep body l (body x acc).2).1, (sweep body l (body x acc).2).2)

/-- Running a loop body over the inner sequences one after the other. -/
def sweepAll {α σ : Type} (body : α → σ → α × σ) : List (List α) → σ → List (List α) × σ
  | [], acc => ([], acc)
  | l :: ls, acc =>
    ((sweep body l acc).1 :: (sweepAll body ls (sweep body l acc).2).1,
      (sweepAll body ls (sweep body l acc).2).2)

/-- A position with a materialized inner view: outer iterator at `i`, the inner
view on the inner sequence `i`, at `j` of `n`. -/
def posAt (N i : Nat) (j n : Int) : FlatView :=
  { m_range_end := N, m_range_begin := some i, m_subrange := some ⟨⟨i, j⟩, ⟨i, n⟩⟩ }

/-- The canonical end snapshot of a view over `N` inner sequences. -/
def endAt (N : Nat) : FlatView :=
  { m_range_end := N, m_range_begin := none, m_subrange := none }

/-- Applying `n` advances of a recursive view in a row. -/
def FlatView.incrN {α : Type} (viaPlus : Bool) (s : Store α) : Nat → FlatView → Option FlatView
  | 0, v => some v
  | n + 1, v =>
    match v.incr viaPlus s with
    | some w => FlatView.incrN viaPlus s n w
    | none => none

/-- Applying `n` advances of a leaf view in a row. -/
def LeafView.incrN : Nat → LeafView → LeafView
  | 0, v => v
  | n + 1, v => LeafView.incrN n v.incr

/-- A recursive position is at end: it is an end snapshot (no outer iterator),
or its outer iterator is on the outer end. -/
def FlatView.atEnd (v : FlatView) : Prop :=
  v.m_range_begin = none ∨ v.m_range_begin = some v.m_range_end

instance (v : FlatView) : Decidable v.atEnd := by
  unfold FlatView.atEnd; exact inferInstance

/-- The inner view `l` ranges over the inner sequence number `i` of `s` and is
not exhausted: its cursor points at an element of that sequence. -/
def LeafView.liveOn {α : Type} (s : Store α) (i : Nat) (l : LeafView) : Prop :=
  l.m_begin.cont = i ∧ l.m_end = ⟨i, ((s[i]?.getD []).length : Int)⟩
    ∧ 0 ≤ l.m_begin.pos ∧ l.m_begin.pos < l.m_end.pos

instance {α : Type} (s : Store α) (i : Nat) (l : LeafView) : Decidable (l.liveOn s i) := by
  unfold LeafView.liveOn; exact inferInstance

/-- The inner view a dereference works on: the materialized one, or else a
fresh one at the begin of the outer element `i`. -/
def FlatView.innerOr {α : Type} (s : Store α) (i : Nat) (v : FlatView) : LeafView :=
  match v.m_subrange with
  | some l => l
  | none => LeafView.ofRange s i

/-! ## Callers: sequences of operations on a position -/

/-- An operation a caller applies to a position: an advance, or a dereference
guarded by the comparison with `end()`. -/
inductive Op where
  | advance
  | deref
  deriving DecidableEq, Repr

/-- One caller operation. `advance` is `++it`; `deref` is
`if (it != it.end()) *it;`, of which the new state of `it` is kept. -/
def step {α : Type} (viaPlus : Bool) (s : Store α) (v : FlatView) : Op → Option FlatView
  | .advance => v.incr viaPlus s
  | .deref =>
    match v.eq s v.end with
    | none => none
    | some true => some v
    | some false =>
      match v.deref s with
      | some (w, _) => some w
      | none => none

/-- A sequence of caller operations, left to right. -/
def run {α : Type} (viaPlus : Bool) (s : Store α) : List Op → FlatView → Option FlatView
  | [], v => some v
  | op :: ops, v =>
    match step viaPlus s v op with
    | some w => run viaPlus s ops w
    | none => none

/-- A position of a view over `s` that is safe to use: the outer end marker is
the end of `s`; the outer cursor is present and within `[begin, end]`; and when
it is not on the end, the inner view, if present, ranges over the outer element
under the cursor and points at one of its elements. -/
def FlatView.safe {α : Type} (s : Store α) (v : FlatView) : Prop :=
  v.m_range_end = s.length
    ∧ v.m_range_begin.isSome = true
    ∧ ∀ i ∈ v.m_range_begin, i ≤ s.length
        ∧ (i < s.length → ∀ l ∈ v.m_subrange, l.liveOn s i)

instance {α : Type} (s : Store α) (v : FlatView) : Decidable (v.safe s) := by
  unfold FlatView.safe; exact inferInstance

/-! ## References and the iterator they are taken from -/

/-- Where the underlying iterator of the inner ranges keeps the value it
designates: in the storage of the range (the iterators of containers), or in a
member of the iterator object itself (`std::istream_iterator`, whose `operator*`
returns a reference to its member `value`). -/
inductive IterKind where
  | container
  | stashing
  deriving DecidableEq, Repr

/-- What the reference returned by `operator*` of the recursive view designates
once `operator*` has returned. Line 176 is `return *m_subrange->begin();` and
the leaf `begin()` (line 37) returns the underlying iterator by value: the
operand of `*` is a temporary, destroyed at the end of the `return` statement.
The reference designates either an element in the storage of the range, or a
member of that destroyed temporary (which stood at the given cursor). -/
inductive Ref where
  | element (c : Cursor)
  | destroyed (c : Cursor)
  deriving DecidableEq, Repr

/-- The member `operator*` of the recursive view (lines 171-177), with what the
returned reference designates for the given kind of underlying iterator. -/
def FlatView.derefRef {α : Type} (kind : IterKind) (s : Store α) (v : FlatView) :
    Option (FlatView × Ref) :=
  match v.deref s with
  | none => none
  | some (w, r) =>
    match kind with
    | .container => some (w, Ref.element r)
    | .stashing => some (w, Ref.destroyed r)

/-- Reading through a reference in the caller; reading through a reference to
a destroyed object is a fault. -/
def Store.readRef {α : Type} (s : Store α) : Ref → Option α
  | .element r => s.read r
  | .destroyed _ => none

/-- Writing through a reference in the caller. -/
def Store.writeRef {α : Type} (s : Store α) : Ref → α → Store α
  | .element r, y => s.write r y
  | .destroyed _, _ => s

/-- The loop `for (auto &el : view) body` as `rangeLoop`, for either kind of
underlying iterator: `el` is bound to the reference `operator*` returned, and
the body reads it in the caller. A stream-backed inner range is given by the
sequence of values its stream yields, a cursor being the number of values
already consumed. -/
def rangeLoopOn {α σ : Type} (kind : IterKind) (viaPlus : Bool) (body : α → σ → α × σ) :
    Nat → Store α → FlatView → FlatView → σ → Option (Store α × σ)
  | 0, _, _, _, _ => none
  | fuel + 1, s, it, e, acc =>
    match it.eq s e with
    | none => none
    | some true => some (s, acc)
    | some false =>
      match it.derefRef kind s with
      | none => none
      | some (it1, r) =>
        match s.readRef r with
        | none => none
        | some x =>
          match it1.incr viaPlus (s.writeRef r (body x acc).1) with
          | none => none
          | some it2 =>
            rangeLoopOn kind viaPlus body fuel (s.writeRef r (body x acc).1) it2 e (body x acc).2

/-- The statement `for (auto &el : flatlib::flat(xs)) body`, for either kind of
underlying iterator of the inner ranges. -/
def rangeForOn {α σ : Type} (kind : IterKind) (viaPlus : Bool) (body : α → σ → α × σ)
    (fuel : Nat) (xs : Store α) (acc : σ) : Option (Store α × σ) :=
  rangeLoopOn kind viaPlus body fuel xs (flat xs).begin (flat xs).end acc

/-! ## Auxiliary facts on lists and on the store -/

theorem getElem?_mid {β : Type} (pre : List β) (x : β) (post : List β) :
    (pre ++ x :: post)[pre.length]? = some x := by
  induction pre with
  | nil => simp
  | cons a pre ih => simpa using ih

theorem set_mid {β : Type} (pre : List β) (x y : β) (post : List β) :
    (pre ++ x :: post).set pre.length y = pre ++ y :: post := by
  induction pre with
  | nil => simp
  | cons a pre ih => simp

theorem read_mid {α : Type} (pre : List (List α)) (done : List α) (x : α) (rest : List α)
    (post : List (List α)) (j : Int) (hj : j = done.length) :
    Store.read (pre ++ (done ++ x :: rest) :: post) ⟨pre.length, j⟩ = some x := by
  subst hj
  have h0 : (0 : Int) ≤ ((done.length : Nat) : Int) := Int.ofNat_nonneg _
  simp only [Store.read, getElem?_mid, h0, if_true, Int.toNat_ofNat]

theorem write_mid {α : Type} (pre : List (List α)) (done : List α) (x y : α) (rest : List α)
    (post : List (List α)) (j : Int) (hj : j = done.length) :
    Store.write (pre ++ (done ++ x :: rest) :: post) ⟨pre.length, j⟩ y
      = pre ++ (done ++ y :: rest) :: post := by
  subst hj
  simp only [Store.write, getElem?_mid, set_mid, Int.toNat_ofNat]

theorem next_of_ne (viaPlus : Bool) (i : Nat) (j n : Int) (h : j ≠ n) :
    LeafView.next viaPlus ⟨⟨i, j⟩, ⟨i, n⟩⟩ = ⟨⟨i, j + 1⟩, ⟨i, n⟩⟩ := by
  cases viaPlus <;> simp [LeafView.next, LeafView.addAssign, LeafView.incr, h]

theorem loop_step_inner {α σ : Type} (viaPlus : Bool) (body : α → σ → α × σ)
    (pre : List (List α)) (done : List α) (x : α) (rest : List α) (post : List (List α))
    (acc : σ) (fuel N : Nat) (j n : Int)
    (hN : N = pre.length + 1 + post.length) (hj : j = done.length)
    (hn : n = done.length + 1 + rest.length) (hrest : rest ≠ []) :
    rangeLoop viaPlus body (fuel + 1) (pre ++ (done ++ x :: rest) :: post)
        (posAt N pre.length j n) (endAt N) acc
      = rangeLoop viaPlus body fuel (pre ++ (done ++ (body x acc).1 :: rest) :: post)
        (posAt N pre.length (j + 1) n) (endAt N) (body x acc).2 := by
  have hne : pre.length ≠ N := by omega
  have hjn : j ≠ n := by omega
  have hjn1 : j + 1 ≠ n := by
    have : 0 < rest.length := List.length_pos.mpr hrest
    omega
  have hr := read_mid pre done x rest post j hj
  have hw := write_mid pre done x (body x acc).1 rest post j hj
  simp only [rangeLoop, FlatView.eq, posAt, endAt, FlatView.deref, LeafView.derefCursor,
    LeafView.begin, LeafView.end, hr, hw, FlatView.incr, next_of_ne viaPlus _ _ _ hjn]
  have hb : (pre.length == N) = false := beq_false_of_ne hne
  simp [hne, hjn1, hb]

/-- Last element of an inner sequence that is not the last one: the advance
steps the outer iterator and materializes the inner view on the next element. -/
theorem loop_step_outer {α σ : Type} (viaPlus : Bool) (body : α → σ → α × σ)
    (pre : List (List α)) (done : List α) (x : α) (p : List α) (post : List (List α))
    (acc : σ) (fuel N : Nat) (j n : Int)
    (hN : N = pre.length + 1 + (p :: post).length) (hj : j = done.length)
    (hn : n = done.length + 1) :
    rangeLoop viaPlus body (fuel + 1) (pre ++ (done ++ [x]) :: p :: post)
        (posAt N pre.length j n) (endAt N) acc
      = rangeLoop viaPlus body fuel (pre ++ (done ++ [(body x acc).1]) :: p :: post)
        (posAt N (pre.length + 1) 0 p.length) (endAt N) (body x acc).2 := by
  have hne : pre.length ≠ N := by simp at hN; omega
  have hne1 : pre.length + 1 ≠ N := by simp at hN; omega
  have hjn : j ≠ n := by omega
  have hjn1 : j + 1 = n := by omega
  have hr := read_mid pre done x [] (p :: post) j hj
  have hw := write_mid pre done x (body x acc).1 [] (p :: post) j hj
  have hb : (pre.length == N) = false := beq_false_of_ne hne
  have hp : (pre ++ (done ++ [(body x acc).1]) :: p :: post)[pre.length + 1]? = some p := by
    have := getElem?_mid (pre ++ [done ++ [(body x acc).1]]) p post
    simpa using this
  simp only [rangeLoop, FlatView.eq, posAt, endAt, FlatView.deref, LeafView.derefCursor,
    LeafView.begin, LeafView.end, hr, hw, FlatView.incr, next_of_ne viaPlus _ _ _ hjn,
    FlatView.emplace, LeafView.ofRange, hp]
  simp [hne, hne1, hjn1, hb]

/-- Last element of the last inner sequence: the advance leaves the outer
iterator on the outer end. -/
theorem loop_step_last {α σ : Type} (viaPlus : Bool) (body : α → σ → α × σ)
    (pre : List (List α)) (done : List α) (x : α)
    (acc : σ) (fuel N : Nat) (j n : Int)
    (hN : N = pre.length + 1) (hj : j = done.length)
    (hn : n = done.length + 1) :
    rangeLoop viaPlus body (fuel + 2) (pre ++ [done ++ [x]])
        (posAt N pre.length j n) (endAt N) acc
      = some (pre ++ [done ++ [(body x acc).1]], (body x acc).2) := by
  have hne : pre.length ≠ N := by omega
  have hjn : j ≠ n := by omega
  have hjn1 : j + 1 = n := by omega
  have hr := read_mid pre done x [] [] j hj
  have hw := write_mid pre done x (body x acc).1 [] [] j hj
  have hb : (pre.length == N) = false := beq_false_of_ne hne
  simp only [rangeLoop, FlatView.eq, posAt, endAt, FlatView.deref, LeafView.derefCursor,
    LeafView.begin, LeafView.end, hr, hw, FlatView.incr, next_of_ne viaPlus _ _ _ hjn]
  subst hN
  simp [hjn1, hb]

/-- The loop from a materialized position inside a structure whose remaining
inner sequences are all non-empty: it finishes, having run the body over the
remaining elements in order. -/
theorem loop_from {α σ : Type} (viaPlus : Bool) (body : α → σ → α × σ) :
    ∀ (post : List (List α)), (∀ l ∈ post, l ≠ []) →
    ∀ (rest : List α), rest ≠ [] →
    ∀ (pre : List (List α)) (done : List α) (acc : σ) (fuel N : Nat) (j n : Int),
      N = pre.length + 1 + post.length → j = done.length →
      n = done.length + rest.length →
      rest.length + post.flatten.length + 1 ≤ fuel →
      rangeLoop viaPlus body fuel (pre ++ (done ++ rest) :: post)
          (posAt N pre.length j n) (endAt N) acc
        = some (pre ++ (done ++ (sweep body rest acc).1)
                  :: (sweepAll body post (sweep body rest acc).2).1,
                (sweepAll body post (sweep body rest acc).2).2) := by
  intro post
  induction post with
  | nil =>
    intro _ rest
    induction rest with
    | nil => intro h; exact absurd rfl h
    | cons x rest ihr =>
      intro _ pre done acc fuel N j n hN hj hn hf
      cases rest with
      | nil =>
        obtain ⟨f, rfl⟩ : ∃ f, fuel = f + 2 := ⟨fuel - 2, by simp at hf; omega⟩
        rw [loop_step_last viaPlus body pre done x acc f N j n (by simpa using hN) hj
          (by simpa using hn)]
        simp [sweep, sweepAll]
      | cons y rest =>
        obtain ⟨f, rfl⟩ : ∃ f, fuel = f + 1 := ⟨fuel - 1, by omega⟩
        rw [loop_step_inner viaPlus body pre done x (y :: rest) [] acc f N j n hN hj
          (by simp at hn ⊢; omega) (by simp)]
        have h := ihr (by simp) pre (done ++ [(body x acc).1]) (body x acc).2 f N (j + 1) n
          hN (by simp; omega) (by simp at hn ⊢; omega) (by simp at hf ⊢; omega)
        simp only [List.append_assoc, List.singleton_append] at h
        rw [h]
        simp [sweep]
  | cons p post ihp =>
    intro hp rest
    induction rest with
    | nil => intro h; exact absurd rfl h
    | cons x rest ihr =>
      intro _ pre done acc fuel N j n hN hj hn hf
      obtain ⟨f, rfl⟩ : ∃ f, fuel = f + 1 := ⟨fuel - 1, by omega⟩
      cases rest with
      | nil =>
        rw [loop_step_outer viaPlus body pre done x p post acc f N j n hN hj
          (by simpa using hn)]
        have h := ihp (fun l hl => hp l (List.mem_cons_of_mem _ hl)) p
          (hp p (List.mem_cons_self _ _)) (pre ++ [done ++ [(body x acc).1]]) []
          (body x acc).2 f N 0 p.length (by simp at hN ⊢; omega) (by simp) (by simp)
          (by simp at hf ⊢; omega)
        simp only [List.append_assoc, List.singleton_append, List.nil_append,
          List.length_append, List.length_singleton, List.length_cons, List.length_nil] at h
        simp only [Nat.zero_add] at h
        rw [h]
        simp [sweep, sweepAll]
      | cons y rest =>
        rw [loop_step_inner viaPlus body pre done x (y :: rest) (p :: post) acc f N j n hN hj
          (by simp at hn ⊢; omega) (by simp)]
        have h := ihr (by simp) pre (done ++ [(body x acc).1]) (body x acc).2 f N (j + 1) n
          hN (by simp; omega) (by simp at hn ⊢; omega) (by simp at hf ⊢; omega)
        simp only [List.append_assoc, List.singleton_append] at h
        rw [h]
        simp [sweep]

/-- The first iteration from a freshly constructed view behaves as if the inner
view were already materialized at the begin of the first inner sequence. -/
theorem loop_fresh {α σ : Type} (viaPlus : Bool) (body : α → σ → α × σ)
    (l : List α) (post : List (List α)) (acc : σ) (fuel : Nat) :
    rangeLoop viaPlus body fuel (l :: post) (flat (l :: post)).begin (flat (l :: post)).end acc
      = rangeLoop viaPlus body fuel (l :: post)
          (posAt (post.length + 1) 0 0 l.length) (endAt (post.length + 1)) acc := by
  cases fuel with
  | zero => simp [rangeLoop]
  | succ f =>
    simp [rangeLoop, flat, FlatView.ofRange, FlatView.begin, FlatView.end, FlatView.eq,
      FlatView.deref, FlatView.emplace, LeafView.ofRange, posAt, endAt]

/-- The loop over a flattened structure of non-empty inner sequences finishes
and computes what running the body over the inner sequences in order does. -/
theorem rangeFor_eq_sweepAll {α σ : Type} (viaPlus : Bool) (body : α → σ → α × σ)
    (xs : Store α) (hne : ∀ l ∈ xs, l ≠ []) (acc : σ) (fuel : Nat)
    (hf : xs.flatten.length + 1 ≤ fuel) :
    rangeFor viaPlus body fuel xs acc = some (sweepAll body xs acc) := by
  cases xs with
  | nil =>
    obtain ⟨f, rfl⟩ : ∃ f, fuel = f + 1 := ⟨fuel - 1, by omega⟩
    simp [rangeFor, rangeLoop, flat, FlatView.ofRange, FlatView.begin, FlatView.end,
      FlatView.eq, sweepAll]
  | cons l post =>
    unfold rangeFor
    rw [loop_fresh]
    have h := loop_from viaPlus body post (fun m hm => hne m (List.mem_cons_of_mem _ hm)) l
      (hne l (List.mem_cons_self _ _)) [] [] acc fuel (post.length + 1) 0 l.length
      (by simp; omega) (by simp) (by simp) (by simp at hf ⊢; omega)
    simp only [List.nil_append, List.length_nil] at h
    rw [h]
    simp [sweepAll]

theorem sweep_emit {α : Type} (l : List α) (out : List α) :
    sweep emit l out = (l, out ++ l) := by
  induction l generalizing out with
  | nil => simp [sweep]
  | cons x l ih => simp [sweep, ih, emit]

theorem sweepAll_emit {α : Type} (xs : List (List α)) (out : List α) :
    sweepAll emit xs out = (xs, out ++ xs.flatten) := by
  induction xs generalizing out with
  | nil => simp [sweepAll]
  | cons l xs ih => simp [sweepAll, sweep_emit, ih]

theorem sweep_assign {α : Type} (f : α → α) (l : List α) (u : Unit) :
    sweep (assign f) l u = (l.map f, ()) := by
  induction l generalizing u with
  | nil => simp [sweep]
  | cons x l ih => simp [sweep, ih, assign]

theorem sweepAll_assign {α : Type} (f : α → α) (xs : List (List α)) (u : Unit) :
    sweepAll (assign f) xs u = (xs.map (List.map f), ()) := by
  induction xs generalizing u with
  | nil => simp [sweepAll]
  | cons l xs ih => simp [sweepAll, sweep_assign, ih]

/-! ## The claims -/

/-- Container-backed inner sequences (references designate storage of the
range): for every sequence `xs` of non-empty inner sequences (the empty outer
sequence included), the range-for traversal of `flat(xs)` (start at `begin()`;
while the position is not equal to `end()`: dereference, then advance) does not
fault, stops, leaves `xs` as it was, and has visited exactly the elements of the
concatenation of the inner sequences, in source order, each once. Any fuel
above the number of elements is enough. -/
theorem flat_traversal_nonempty {α : Type} (viaPlus : Bool) (xs : Store α)
    (hne : ∀ l ∈ xs, l ≠ []) (fuel : Nat) (hf : xs.flatten.length + 1 ≤ fuel) :
    rangeFor viaPlus emit fuel xs [] = some (xs, xs.flatten) := by
  rw [rangeFor_eq_sweepAll viaPlus emit xs hne [] fuel hf, sweepAll_emit]
  simp

theorem flat_traversal_nonempty_witness :
    rangeFor false emit 7 [[1, 2, 3], [4, 5, 6]] [] = some ([[1, 2, 3], [4, 5, 6]], [1, 2, 3, 4, 5, 6]) :=
  flat_traversal_nonempty false [[1, 2, 3], [4, 5, 6]] (by decide) 7 (by decide)

/-- C2 (the code at the failing input): the range-for traversal of
`flat([[1,2],[],[3]])` faults. After the element 2 the advance steps the outer
iterator onto the empty inner sequence and materializes the inner view there
without a further check; the position is not equal to `end()`, so the loop
dereferences the exhausted inner view. -/
theorem flat_traversal_empty_inner_faults (viaPlus : Bool) (fuel : Nat) :
    rangeFor viaPlus emit (fuel + 3) [[1, 2], [], [3]] [] = none := by
  cases viaPlus <;> simp [rangeFor, rangeLoop, flat, FlatView.ofRange, FlatView.begin,
    FlatView.end, FlatView.eq, FlatView.deref, FlatView.emplace, LeafView.ofRange,
    LeafView.derefCursor, LeafView.begin, LeafView.end, Store.read, Store.write, emit,
    FlatView.incr, LeafView.next, LeafView.addAssign, LeafView.incr]

/-- C3: for every sequence `xs` of non-empty inner sequences and every `f`, the
loop `for (auto &el : flat(xs)) el = f(el)` finishes and leaves the nested
structure equal to `map (map f) xs`: the same number of inner sequences, the
same lengths, every element replaced by `f` of its original value. -/
theorem flat_assign_through_view {α : Type} (viaPlus : Bool) (f : α → α) (xs : Store α)
    (hne : ∀ l ∈ xs, l ≠ []) (fuel : Nat) (hf : xs.flatten.length + 1 ≤ fuel) :
    ∃ ys, rangeFor viaPlus (assign f) fuel xs () = some (ys, ())
      ∧ ys = xs.map (List.map f)
      ∧ ys.length = xs.length
      ∧ ys.map List.length = xs.map List.length := by
  refine ⟨xs.map (List.map f), ?_, rfl, by simp, ?_⟩
  · rw [rangeFor_eq_sweepAll viaPlus (assign f) xs hne () fuel hf, sweepAll_assign]
  · simp [List.map_map, Function.comp_def]

theorem flat_assign_through_view_witness :
    ∃ ys, rangeFor true (assign (fun el : Nat => el + el * 10)) 7 [[1, 2], [3, 4, 5, 6]] ()
        = some (ys, ())
      ∧ ys = [[11, 22], [33, 44, 55, 66]]
      ∧ ys.length = 2
      ∧ ys.map List.length = [2, 4] :=
  flat_assign_through_view true (fun el : Nat => el + el * 10) [[1, 2], [3, 4, 5, 6]]
    (by decide) 7 (by decide)

theorem leaf_incrN_at_end (n : Nat) (l : LeafView) (hl : l.m_begin = l.m_end) :
    LeafView.incrN n l = l := by
  induction n with
  | zero => rfl
  | succ n ih => simp [LeafView.incrN, LeafView.incr, hl, ih]

theorem flat_incr_at_end {α : Type} (viaPlus : Bool) (s : Store α) (v : FlatView)
    (hv : v.atEnd) : v.incr viaPlus s = some v := by
  rcases hv with h | h <;> simp [FlatView.incr, h]

theorem flat_incrN_at_end {α : Type} (viaPlus : Bool) (s : Store α) (n : Nat) (v : FlatView)
    (hv : v.atEnd) : FlatView.incrN viaPlus s n v = some v := by
  induction n with
  | zero => rfl
  | succ n ih => simp [FlatView.incrN, flat_incr_at_end viaPlus s v hv, ih]

/-- C4: advancing a view that is at end any number `n` of times does not fault,
leaves its state unchanged and leaves it equal to `end()`. For a leaf view `l`
whose cursor equals its end marker: `n` advances give `l` back, whose `begin()`
is its `end()`. For a recursive view `v` that is an end snapshot or whose outer
cursor is on the outer end: `n` advances give `v` back, and `v == v.end()` and
`v.end() == v` are well-defined and true. -/
theorem end_advance_idempotent {α : Type} (viaPlus : Bool) (s : Store α) (n : Nat)
    (l : LeafView) (hl : l.m_begin = l.m_end) (v : FlatView) (hv : v.atEnd) :
    (LeafView.incrN n l = l ∧ (LeafView.incrN n l).begin = (LeafView.incrN n l).end
        ∧ (LeafView.incrN n l).eq l = true)
      ∧ (FlatView.incrN viaPlus s n v = some v
        ∧ ∀ w, FlatView.incrN viaPlus s n v = some w →
            w.eq s w.end = some true ∧ w.end.eq s w = some true) := by
  refine ⟨?_, flat_incrN_at_end viaPlus s n v hv, ?_⟩
  · rw [leaf_incrN_at_end n l hl]
    exact ⟨rfl, hl, by simp [LeafView.eq]⟩
  · intro w hw
    rw [flat_incrN_at_end viaPlus s n v hv] at hw
    cases hw
    rcases hv with h | h <;> simp [FlatView.eq, FlatView.end, h]

theorem end_advance_idempotent_witness :
    (LeafView.incrN 5 ⟨⟨0, 2⟩, ⟨0, 2⟩⟩ = ⟨⟨0, 2⟩, ⟨0, 2⟩⟩
        ∧ (LeafView.incrN 5 ⟨⟨0, 2⟩, ⟨0, 2⟩⟩).begin = (LeafView.incrN 5 ⟨⟨0, 2⟩, ⟨0, 2⟩⟩).end
        ∧ (LeafView.incrN 5 ⟨⟨0, 2⟩, ⟨0, 2⟩⟩).eq ⟨⟨0, 2⟩, ⟨0, 2⟩⟩ = true)
      ∧ (FlatView.incrN true [[1, 2], [3]] 5 ⟨2, some 2, some ⟨⟨1, 1⟩, ⟨1, 1⟩⟩⟩
          = some ⟨2, some 2, some ⟨⟨1, 1⟩, ⟨1, 1⟩⟩⟩
        ∧ ∀ w, FlatView.incrN true [[1, 2], [3]] 5 ⟨2, some 2, some ⟨⟨1, 1⟩, ⟨1, 1⟩⟩⟩ = some w →
            w.eq [[1, 2], [3]] w.end = some true ∧ w.end.eq [[1, 2], [3]] w = some true) :=
  end_advance_idempotent true [[1, 2], [3]] 5 ⟨⟨0, 2⟩, ⟨0, 2⟩⟩ rfl
    ⟨2, some 2, some ⟨⟨1, 1⟩, ⟨1, 1⟩⟩⟩ (Or.inr rfl)

/-- C5 (the code at the failing input): over `[[1,2]]`, let `a` be a fresh view
advanced once without a dereference, and `b` a fresh view dereferenced once and
advanced twice. Both have the outer cursor on the outer end, `a` without and
`b` with an inner view. Then `a == b` and `b == a` fault: lines 221 and 223
take `(*m_range_begin)->begin()` with the outer cursor on the outer end. -/
theorem end_equality_mixed_faults (viaPlus : Bool) :
    ∃ a b : FlatView,
      (flat [[1, 2]]).incr viaPlus [[1, 2]] = some a
      ∧ (((flat [[1, 2]]).deref [[1, 2]]).bind fun p =>
          (p.1.incr viaPlus [[1, 2]]).bind fun w => w.incr viaPlus [[1, 2]]) = some b
      ∧ a.atEnd ∧ b.atEnd
      ∧ a.eq [[1, 2]] b = none ∧ b.eq [[1, 2]] a = none := by
  refine ⟨⟨1, some 1, none⟩, ⟨1, some 1, some ⟨⟨0, 2⟩, ⟨0, 2⟩⟩⟩, ?_, ?_, Or.inr rfl, Or.inr rfl,
    ?_, ?_⟩
  · cases viaPlus <;> decide
  · cases viaPlus <;> decide
  · decide
  · decide

/-- C6: for a recursive position over `s` whose outer cursor `i` is not at the
end and whose current inner sequence is not exhausted (the materialized inner
view, or a fresh one on the outer element `i` when none is materialized, points
at an element), the dereference is well-defined and returns a reference `r` to
that element; the state after it is the state before it with the inner view
materialized (at the begin of the outer element `i` if it was absent, as it
was otherwise); a second dereference returns the same reference and leaves the
state unchanged. -/
theorem deref_idempotent {α : Type} (s : Store α) (v : FlatView) (i : Nat)
    (hend : v.m_range_end = s.length) (hi : v.m_range_begin = some i)
    (hne : i < v.m_range_end) (hlive : (v.innerOr s i).liveOn s i) :
    ∃ (r : Cursor) (x : α),
      v.deref s = some ({ v with m_subrange := some (v.innerOr s i) }, r)
      ∧ FlatView.deref s { v with m_subrange := some (v.innerOr s i) }
          = some ({ v with m_subrange := some (v.innerOr s i) }, r)
      ∧ r = (v.innerOr s i).m_begin
      ∧ s.read r = some x
      ∧ (v.m_subrange = none → (v.innerOr s i).m_begin = ⟨i, 0⟩)
      ∧ (v.m_subrange ≠ none → { v with m_subrange := some (v.innerOr s i) } = v) := by
  obtain ⟨hc, he, h0, hlt⟩ := hlive
  have hil : i < s.length := hend ▸ hne
  obtain ⟨x, hx⟩ : ∃ x, s.read (v.innerOr s i).m_begin = some x := by
    rw [he] at hlt
    simp only [Store.read, h0, if_true, hc, List.getElem?_eq_getElem hil]
    simp only [List.getElem?_eq_getElem hil, Option.getD_some] at hlt
    have hlt2 : (v.innerOr s i).m_begin.pos.toNat < (s[i]).length := by omega
    exact ⟨_, List.getElem?_eq_getElem hlt2⟩
  refine ⟨(v.innerOr s i).m_begin, x, ?_, ?_, rfl, hx, ?_, ?_⟩
  · cases hs : v.m_subrange with
    | none =>
      simp [FlatView.deref, FlatView.innerOr, hs, hi, FlatView.emplace, hil,
        LeafView.derefCursor, LeafView.begin] at hx ⊢
      simp [hx]
    | some l =>
      simp [FlatView.deref, FlatView.innerOr, hs, LeafView.derefCursor, LeafView.begin] at hx ⊢
      simp [hx]
  · simp [FlatView.deref, LeafView.derefCursor, LeafView.begin, hx]
  · intro hs
    simp [FlatView.innerOr, hs, LeafView.ofRange]
  · intro hs
    cases hv : v.m_subrange with
    | none => exact absurd hv hs
    | some l =>
      cases v
      simp_all [FlatView.innerOr]

theorem deref_idempotent_witness :
    ∃ (r : Cursor) (x : Nat),
      FlatView.deref [[1, 2], [3]] ⟨2, some 1, none⟩
          = some ({ (⟨2, some 1, none⟩ : FlatView) with
              m_subrange := some (FlatView.innerOr [[1, 2], [3]] 1 ⟨2, some 1, none⟩) }, r)
      ∧ FlatView.deref [[1, 2], [3]] { (⟨2, some 1, none⟩ : FlatView) with
              m_subrange := some (FlatView.innerOr [[1, 2], [3]] 1 ⟨2, some 1, none⟩) }
          = some ({ (⟨2, some 1, none⟩ : FlatView) with
              m_subrange := some (FlatView.innerOr [[1, 2], [3]] 1 ⟨2, some 1, none⟩) }, r)
      ∧ r = (FlatView.innerOr [[1, 2], [3]] 1 ⟨2, some 1, none⟩).m_begin
      ∧ Store.read [[1, 2], [3]] r = some x
      ∧ ((⟨2, some 1, none⟩ : FlatView).m_subrange = none →
          (FlatView.innerOr [[1, 2], [3]] 1 ⟨2, some 1, none⟩).m_begin = ⟨1, 0⟩)
      ∧ ((⟨2, some 1, none⟩ : FlatView).m_subrange ≠ none →
          { (⟨2, some 1, none⟩ : FlatView) with
              m_subrange := some (FlatView.innerOr [[1, 2], [3]] 1 ⟨2, some 1, none⟩) }
            = ⟨2, some 1, none⟩) :=
  deref_idempotent [[1, 2], [3]] ⟨2, some 1, none⟩ 1 rfl rfl (by decide) (by decide)

/-- C7: for two recursive positions `a`, `b` over `s` with the same outer
cursor `i`, not at the outer end, where `a` has a materialized inner view `l`
and `b` has none, `a == b` and `b == a` are well-defined and hold if and only if
the cursor of `l` is the begin of the outer element `i`. In particular a
never-dereferenced position `b` compares equal, in both orders, to the position
obtained from it by materializing the inner view, which is the state a first
dereference leaves. The comparison returns only its verdict: neither operand
is changed. -/
theorem eq_one_sided {α : Type} (s : Store α) (a b : FlatView) (i : Nat) (l : LeafView)
    (ha : a.m_range_begin = some i) (hb : b.m_range_begin = some i) (hi : i < s.length)
    (hal : a.m_subrange = some l) (hbn : b.m_subrange = none) :
    a.eq s b = some (decide (l.m_begin = ⟨i, 0⟩))
      ∧ b.eq s a = some (decide (l.m_begin = ⟨i, 0⟩))
      ∧ b.eq s { b with m_subrange := some (LeafView.ofRange s i) } = some true
      ∧ FlatView.eq s { b with m_subrange := some (LeafView.ofRange s i) } b = some true
      ∧ ∀ b1 r, b.deref s = some (b1, r) →
          b1 = { b with m_subrange := some (LeafView.ofRange s i) }
          ∧ b.eq s b1 = some true ∧ b1.eq s b = some true := by
  have e1 : b.eq s { b with m_subrange := some (LeafView.ofRange s i) } = some true := by
    simp [FlatView.eq, hb, hbn, FlatView.elemBegin, hi, LeafView.begin, LeafView.ofRange]
  have e2 : FlatView.eq s { b with m_subrange := some (LeafView.ofRange s i) } b = some true := by
    simp [FlatView.eq, hb, hbn, FlatView.elemBegin, hi, LeafView.begin, LeafView.ofRange]
  refine ⟨?_, ?_, e1, e2, ?_⟩
  · simp only [FlatView.eq, ha, hb, hal, hbn, FlatView.elemBegin, hi, LeafView.begin, if_true,
      ne_eq, not_true_eq_false, if_false]
    rfl
  · simp only [FlatView.eq, ha, hb, hal, hbn, FlatView.elemBegin, hi, LeafView.begin, if_true,
      ne_eq, not_true_eq_false, if_false]
    rfl
  · intro b1 r hd
    have hb1 : b1 = { b with m_subrange := some (LeafView.ofRange s i) } := by
      simp only [FlatView.deref, hbn, hb, FlatView.emplace, hi, if_true] at hd
      split at hd
      · cases hd; rw [hb]
      · cases hd
    subst hb1
    exact ⟨rfl, e1, e2⟩

theorem eq_one_sided_witness :
    FlatView.eq [[1, 2], [3]] ⟨2, some 0, some ⟨⟨0, 1⟩, ⟨0, 2⟩⟩⟩ ⟨2, some 0, none⟩ = some false
      ∧ FlatView.eq [[1, 2], [3]] ⟨2, some 0, none⟩ ⟨2, some 0, some ⟨⟨0, 1⟩, ⟨0, 2⟩⟩⟩ = some false :=
  have h := eq_one_sided [[1, 2], [3]] ⟨2, some 0, some ⟨⟨0, 1⟩, ⟨0, 2⟩⟩⟩ ⟨2, some 0, none⟩ 0
    ⟨⟨0, 1⟩, ⟨0, 2⟩⟩ rfl rfl (by decide) rfl rfl
  ⟨h.1, h.2.1⟩

/-- C8: the iterator category of a recursive view is input when the category of
the inner flattener is input and forward otherwise, whatever the outer category;
so it is never bidirectional or random-access, also when every level is
random-access (`vector<vector<int>>`, `vector<array<int,3>>`) or the outer level
is bidirectional (`list<vector<int>>`): these give forward. The category of a
leaf view is the category of the wrapped cursor. -/
theorem category_collapse (o c : Category) (e : RangeTy) :
    iterator_category (.nested o e)
        = (if iterator_category e = .input then .input else .forward)
      ∧ iterator_category (.nested o e) ≠ .bidirectional
      ∧ iterator_category (.nested o e) ≠ .random_access
      ∧ (iterator_category (.nested o e)).rank ≤ Category.forward.rank
      ∧ iterator_category (.nested .random_access (.leaf .random_access)) = .forward
      ∧ iterator_category (.nested .bidirectional (.leaf .random_access)) = .forward
      ∧ iterator_category (.nested .forward (.leaf .random_access)) = .forward
      ∧ iterator_category (.nested .forward (.leaf .input)) = .input
      ∧ iterator_category (.leaf c) = c := by
  refine ⟨by simp [iterator_category], ?_, ?_, ?_, by decide, by decide, by decide, by decide,
    rfl⟩
  · by_cases h : iterator_category e = .input <;> simp [iterator_category, h]
  · by_cases h : iterator_category e = .input <;> simp [iterator_category, h]
  · by_cases h : iterator_category e = .input <;> simp [iterator_category, h, Category.rank]

/-- C9 as stated fails: a single-pass outer sequence of random-access inner
sequences gets the category forward, which is stronger than the outer
category. -/
theorem category_exceeds_outer :
    iterator_category (.nested .input (.leaf .random_access)) = .forward
      ∧ ¬ (iterator_category (.nested .input (.leaf .random_access))).rank
            ≤ Category.input.rank := by
  decide

/-- C9 amended: the category of a recursive view does not depend on the outer
category `o`: it is the weakest of the forward cap and, at the single-pass
level only, the category of the inner flattener. It is never stronger than
forward, and it is no stronger than `o` exactly when `o` is not single-pass or
the inner flattener is single-pass. -/
theorem category_ignores_outer (o o2 : Category) (e : RangeTy) :
    iterator_category (.nested o e) = iterator_category (.nested o2 e)
      ∧ (iterator_category (.nested o e)).rank
          = min Category.forward.rank (iterator_category e).rank
      ∧ (iterator_category (.nested o e)).rank ≤ Category.forward.rank
      ∧ ((iterator_category (.nested o e)).rank ≤ o.rank
          ↔ (o ≠ .input ∨ iterator_category e = .input)) := by
  refine ⟨by simp [iterator_category], ?_, ?_, ?_⟩
  · cases h : iterator_category e <;> simp [iterator_category, h, Category.rank]
  · by_cases h : iterator_category e = .input <;> simp [iterator_category, h, Category.rank]
  · by_cases h : iterator_category e = .input <;> cases o <;>
      simp [iterator_category, h, Category.rank]

/-- C10: for a leaf view `v` over the sequence `l` (the inner sequence of the
store the cursor of `v` points into) with cursor at index `p`, and every offset
`n` with `0 ≤ p + n < length l`: `v[n]` is well-defined and is a reference to
the element at index `p + n`; it is the dereference of `v + n`; `v` is not
changed by it (indexed access returns only the reference); `(v + n) - v = n`;
and offsetting by `n` and then by `-n` (by `+ (-n)`, or by `- n`) gives back
`v`, which compares equal to `v`. -/
theorem leaf_random_access {α : Type} (s : Store α) (l : List α) (v : LeafView) (n : Int)
    (hl : s[v.m_begin.cont]? = some l)
    (h0 : 0 ≤ v.m_begin.pos + n) (hlt : v.m_begin.pos + n < l.length) :
    v.index s n = some ⟨v.m_begin.cont, v.m_begin.pos + n⟩
      ∧ (∃ x, l[(v.m_begin.pos + n).toNat]? = some x
          ∧ (v.index s n).bind s.read = some x)
      ∧ v.index s n = (v.add n).deref s
      ∧ (v.add n).m_begin.pos = v.m_begin.pos + n
      ∧ (v.add n).diff v = n
      ∧ (v.add n).add (-n) = v
      ∧ (v.add n).sub n = v
      ∧ ((v.add n).add (-n)).eq v = true := by
  have hlt2 : (v.m_begin.pos + n).toNat < l.length := by omega
  have hx : l[(v.m_begin.pos + n).toNat]? = some (l[(v.m_begin.pos + n).toNat]) :=
    List.getElem?_eq_getElem hlt2
  have hr : s.read ⟨v.m_begin.cont, v.m_begin.pos + n⟩ = some (l[(v.m_begin.pos + n).toNat]) := by
    simp only [Store.read, h0, if_true, hl, hx]
  have hidx : v.index s n = some ⟨v.m_begin.cont, v.m_begin.pos + n⟩ := by
    simp [LeafView.index, LeafView.derefCursor, hr]
  have hback : (v.add n).add (-n) = v := by
    cases v with | mk b e => cases b; simp [LeafView.add, LeafView.addAssign]
  refine ⟨hidx, ⟨_, hx, ?_⟩, ?_, rfl, ?_, hback, ?_, ?_⟩
  · rw [hidx]; simpa using hr
  · simp [LeafView.index, LeafView.deref, LeafView.add, LeafView.addAssign]
  · simp [LeafView.diff, LeafView.add, LeafView.addAssign]
  · cases v with | mk b e => cases b; simp [LeafView.sub, LeafView.subAssign, LeafView.add, LeafView.addAssign]
  · rw [hback]; simp [LeafView.eq]

theorem leaf_random_access_witness :
    LeafView.index [[10, 20, 30, 40]] ⟨⟨0, 2⟩, ⟨0, 4⟩⟩ (-1) = some ⟨0, 1⟩
      ∧ (LeafView.index [[10, 20, 30, 40]] ⟨⟨0, 2⟩, ⟨0, 4⟩⟩ (-1)).bind
          (Store.read [[10, 20, 30, 40]]) = some 20 :=
  have h := leaf_random_access [[10, 20, 30, 40]] [10, 20, 30, 40] ⟨⟨0, 2⟩, ⟨0, 4⟩⟩ (-1)
    rfl (by decide) (by decide)
  ⟨h.1, by decide⟩

/-- C11 (the code at the failing input): over `[[1,2],[3]]` let `a` be a freshly
constructed view and `b` the same view after one dereference. They are not at
end and compare equal in both orders. One advance of `b` moves to the element
2 (outer element 0, index 1); one advance of `a` finds no inner view, steps
the outer cursor and moves to the element 3 (outer element 1, index 0). The
advanced positions compare unequal. -/
theorem advance_breaks_equality (viaPlus : Bool) :
    ∃ (a b a1 b1 a2 b2 : FlatView) (r : Cursor),
      a = flat [[1, 2], [3]]
      ∧ a.deref [[1, 2], [3]] = some (b, r)
      ∧ a.eq [[1, 2], [3]] a.end = some false ∧ b.eq [[1, 2], [3]] b.end = some false
      ∧ a.eq [[1, 2], [3]] b = some true ∧ b.eq [[1, 2], [3]] a = some true
      ∧ a.incr viaPlus [[1, 2], [3]] = some a1
      ∧ b.incr viaPlus [[1, 2], [3]] = some b1
      ∧ a1.eq [[1, 2], [3]] b1 = some false ∧ b1.eq [[1, 2], [3]] a1 = some false
      ∧ a1.deref [[1, 2], [3]] = some (a2, ⟨1, 0⟩)
      ∧ Store.read [[1, 2], [3]] ⟨1, 0⟩ = some 3
      ∧ b1.deref [[1, 2], [3]] = some (b2, ⟨0, 1⟩)
      ∧ Store.read [[1, 2], [3]] ⟨0, 1⟩ = some 2 := by
  refine ⟨⟨2, some 0, none⟩, ⟨2, some 0, some ⟨⟨0, 0⟩, ⟨0, 2⟩⟩⟩,
    ⟨2, some 1, some ⟨⟨1, 0⟩, ⟨1, 1⟩⟩⟩, ⟨2, some 0, some ⟨⟨0, 1⟩, ⟨0, 2⟩⟩⟩,
    ⟨2, some 1, some ⟨⟨1, 0⟩, ⟨1, 1⟩⟩⟩, ⟨2, some 0, some ⟨⟨0, 1⟩, ⟨0, 2⟩⟩⟩, ⟨0, 0⟩,
    by decide, by decide, by decide, by decide, by decide, by decide, ?_, ?_,
    by decide, by decide, by decide, by decide, by decide, by decide⟩
  · cases viaPlus <;> decide
  · cases viaPlus <;> decide

/-- C12 as stated fails: over `[[1]]`, a fresh view dereferenced once and then
advanced (the inner view stepped through `operator+=` or through `operator++`)
has its outer cursor on the outer end, and its inner view is still present:
the exhausted inner view over the previous outer element. -/
theorem advance_to_end_keeps_inner :
    ∃ (v w : FlatView) (r : Cursor),
      (flat [[1]]).deref [[1]] = some (v, r)
      ∧ v.m_range_begin = some 0
      ∧ v.incr true [[1]] = some w
      ∧ v.incr false [[1]] = some w
      ∧ w.m_range_begin = some w.m_range_end
      ∧ w.m_subrange = some ⟨⟨0, 1⟩, ⟨0, 1⟩⟩
      ∧ w.m_subrange ≠ none := by
  refine ⟨⟨1, some 0, some ⟨⟨0, 0⟩, ⟨0, 1⟩⟩⟩, ⟨1, some 1, some ⟨⟨0, 1⟩, ⟨0, 1⟩⟩⟩, ⟨0, 0⟩,
    by decide, rfl, by decide, by decide, rfl, rfl, by decide⟩

/-- C12 amended: when an advance of a recursive view moves the outer cursor
onto the outer end (the cursor `i` is not on the end, `i + 1` is, and the inner
view is absent or exhausted after its own step), the advance does not fault
and stops there without materializing an inner view: the outer cursor is on
the end, the inner view is absent if it was absent before the advance, and
otherwise it is the stepped, exhausted inner view of the previous outer
element. The resulting position is at end and compares equal to `end()`. -/
theorem advance_to_end {α : Type} (viaPlus : Bool) (s : Store α) (v : FlatView) (i : Nat)
    (hi : v.m_range_begin = some i) (hne : i ≠ v.m_range_end) (hmv : i + 1 = v.m_range_end)
    (hex : ∀ l, v.m_subrange = some l → (l.next viaPlus).begin = (l.next viaPlus).end) :
    ∃ w, v.incr viaPlus s = some w
      ∧ w.m_range_end = v.m_range_end
      ∧ w.m_range_begin = some v.m_range_end
      ∧ w.m_subrange = v.m_subrange.map (LeafView.next viaPlus)
      ∧ (w.m_subrange = none ↔ v.m_subrange = none)
      ∧ w.atEnd
      ∧ w.eq s w.end = some true ∧ w.end.eq s w = some true := by
  refine ⟨{ v with m_range_begin := some (i + 1),
                   m_subrange := v.m_subrange.map (LeafView.next viaPlus) }, ?_, rfl, ?_, rfl, ?_,
    ?_, ?_, ?_⟩
  · cases hs : v.m_subrange with
    | none => simp [FlatView.incr, hi, hne, hmv, hs]
    | some l =>
      have h := hex l hs
      simp [FlatView.incr, hi, hne, hmv, hs, h]
  · simp [hmv]
  · cases v.m_subrange <;> simp
  · right; simp [hmv]
  · simp [FlatView.eq, FlatView.end, hmv]
  · simp [FlatView.eq, FlatView.end, hmv]

theorem advance_to_end_witness :
    ∃ w, FlatView.incr true [[1, 2], [3]] ⟨2, some 1, some ⟨⟨1, 0⟩, ⟨1, 1⟩⟩⟩ = some w
      ∧ w.m_range_end = 2
      ∧ w.m_range_begin = some 2
      ∧ w.m_subrange = some ⟨⟨1, 1⟩, ⟨1, 1⟩⟩
      ∧ (w.m_subrange = none ↔ (some ⟨⟨1, 0⟩, ⟨1, 1⟩⟩ : Option LeafView) = none)
      ∧ w.atEnd
      ∧ w.eq [[1, 2], [3]] w.end = some true ∧ w.end.eq [[1, 2], [3]] w = some true :=
  advance_to_end true [[1, 2], [3]] ⟨2, some 1, some ⟨⟨1, 0⟩, ⟨1, 1⟩⟩⟩ 1 rfl (by decide) rfl
    (by intro l hl; cases hl; decide)

/-- C16: for all positions `a`, `b` of views over `s` (both with the outer end
marker of `s`) whose outer cursors are absent or point at an outer element (not
at the outer end), `a == a` is true, `a == b` is well-defined, and `a == b`
and `b == a` give the same verdict; this covers the cases where exactly one
side is an end snapshot or exactly one side has a materialized inner view. -/
theorem eq_refl_symm {α : Type} (s : Store α) (a b : FlatView)
    (hae : a.m_range_end = s.length) (hbe : b.m_range_end = s.length)
    (ha : ∀ i, a.m_range_begin = some i → i < s.length)
    (hb : ∀ i, b.m_range_begin = some i → i < s.length) :
    a.eq s a = some true
      ∧ (∃ r, a.eq s b = some r)
      ∧ a.eq s b = b.eq s a := by
  obtain ⟨ae, ab, asub⟩ := a
  obtain ⟨be, bb, bsub⟩ := b
  simp only at hae hbe ha hb
  subst hae hbe
  refine ⟨?_, ?_, ?_⟩
  · cases ab <;> cases asub <;> simp [FlatView.eq]
  · cases ab with
    | none => cases bb <;> simp [FlatView.eq]
    | some i =>
      cases bb with
      | none => simp [FlatView.eq]
      | some j =>
        have hi := ha i rfl
        have hj := hb j rfl
        by_cases hij : i = j
        · subst hij
          cases asub <;> cases bsub <;> simp [FlatView.eq, FlatView.elemBegin, hi]
        · simp [FlatView.eq, hij]
  · cases ab with
    | none =>
      cases bb with
      | none => simp [FlatView.eq]
      | some j => simp [FlatView.eq]
    | some i =>
      cases bb with
      | none => simp [FlatView.eq]
      | some j =>
        have hi := ha i rfl
        have hj := hb j rfl
        by_cases hij : i = j
        · subst hij
          cases asub <;> cases bsub <;>
            simp [FlatView.eq, FlatView.elemBegin, hi, LeafView.begin, eq_comm]
        · have hji : ¬ j = i := fun h => hij h.symm
          simp [FlatView.eq, hij, hji]

theorem eq_refl_symm_witness :
    FlatView.eq [[1, 2], [3]] ⟨2, some 0, some ⟨⟨0, 1⟩, ⟨0, 2⟩⟩⟩ ⟨2, some 0, some ⟨⟨0, 1⟩, ⟨0, 2⟩⟩⟩
        = some true
      ∧ (∃ r, FlatView.eq [[1, 2], [3]] ⟨2, some 0, some ⟨⟨0, 1⟩, ⟨0, 2⟩⟩⟩ ⟨2, none, none⟩ = some r)
      ∧ FlatView.eq [[1, 2], [3]] ⟨2, some 0, some ⟨⟨0, 1⟩, ⟨0, 2⟩⟩⟩ ⟨2, none, none⟩
          = FlatView.eq [[1, 2], [3]] ⟨2, none, none⟩ ⟨2, some 0, some ⟨⟨0, 1⟩, ⟨0, 2⟩⟩⟩ :=
  eq_refl_symm [[1, 2], [3]] ⟨2, some 0, some ⟨⟨0, 1⟩, ⟨0, 2⟩⟩⟩ ⟨2, none, none⟩ rfl rfl
    (by intro i h; cases h; decide) (by intro i h; cases h)

theorem leaf_incrN_pos (n : Nat) (v : LeafView)
    (hc : v.m_begin.cont = v.m_end.cont) (hp : v.m_begin.pos ≤ v.m_end.pos) :
    LeafView.incrN n v
      = { v with m_begin := ⟨v.m_begin.cont, min (v.m_begin.pos + n) v.m_end.pos⟩ } := by
  induction n generalizing v with
  | zero =>
    obtain ⟨⟨c, p⟩, e⟩ := v
    simp only at hp
    simp [LeafView.incrN, min_eq_left hp]
  | succ n ih =>
    obtain ⟨⟨c, p⟩, ⟨c2, q⟩⟩ := v
    simp only at hc hp
    subst hc
    by_cases hpq : p = q
    · subst hpq
      have hi : LeafView.incr ⟨⟨c, p⟩, ⟨c, p⟩⟩ = ⟨⟨c, p⟩, ⟨c, p⟩⟩ := by simp [LeafView.incr]
      rw [LeafView.incrN, hi, ih _ rfl (le_refl _)]
      have h1 : min (p + (n : Int)) p = p := by omega
      have h2 : min (p + ((n + 1 : Nat) : Int)) p = p := by omega
      simp only [h1, h2]
    · have hi : LeafView.incr ⟨⟨c, p⟩, ⟨c, q⟩⟩ = ⟨⟨c, p + 1⟩, ⟨c, q⟩⟩ := by
        simp [LeafView.incr, hpq]
      rw [LeafView.incrN, hi, ih _ rfl (by simp only; omega)]
      have h : min (p + 1 + (n : Int)) q = min (p + ((n + 1 : Nat) : Int)) q := by
        push_cast; congr 1; omega
      simp only [h]

/-- C17: for a leaf view `v` with cursor at index `p` of a sequence of length
`len` (cursor and end marker on the same sequence, `p ≤ len`) and every
`n ≥ 0`, advancing `n` times leaves the cursor at `min (p + n) len` and the end
marker as it was; so for `n ≤ len - p`, `n` advances give the view `v + n`,
which also compares equal to it; and when `v` is not at end, one retreat after
one advance gives back `v`, cursor at `p`. -/
theorem leaf_advance_agrees_offset (v : LeafView) (n : Nat)
    (hc : v.m_begin.cont = v.m_end.cont) (hp : v.m_begin.pos ≤ v.m_end.pos) :
    (LeafView.incrN n v).m_begin = ⟨v.m_begin.cont, min (v.m_begin.pos + n) v.m_end.pos⟩
      ∧ (LeafView.incrN n v).m_end = v.m_end
      ∧ ((n : Int) ≤ v.m_end.pos - v.m_begin.pos →
          LeafView.incrN n v = v.add n ∧ (LeafView.incrN n v).eq (v.add n) = true)
      ∧ (v.m_begin ≠ v.m_end → v.incr.decr = v ∧ v.incr.decr.m_begin.pos = v.m_begin.pos) := by
  rw [leaf_incrN_pos n v hc hp]
  refine ⟨rfl, rfl, ?_, ?_⟩
  · intro hn
    have h : min (v.m_begin.pos + (n : Int)) v.m_end.pos = v.m_begin.pos + n := by omega
    simp [h, LeafView.add, LeafView.addAssign, LeafView.eq]
  · intro hne
    obtain ⟨⟨c, p⟩, e⟩ := v
    simp [LeafView.incr, LeafView.decr, hne]

theorem leaf_advance_agrees_offset_witness :
    (LeafView.incrN 5 ⟨⟨0, 1⟩, ⟨0, 4⟩⟩).m_begin = ⟨0, 4⟩
      ∧ (LeafView.incrN 2 ⟨⟨0, 1⟩, ⟨0, 4⟩⟩).m_begin = ⟨0, 3⟩ :=
  ⟨(leaf_advance_agrees_offset ⟨⟨0, 1⟩, ⟨0, 4⟩⟩ 5 rfl (by decide)).1,
   (leaf_advance_agrees_offset ⟨⟨0, 1⟩, ⟨0, 4⟩⟩ 2 rfl (by decide)).1⟩

/-! ## Positions that are safe to use -/

theorem next_of_begin_ne (viaPlus : Bool) (l : LeafView) (h : l.m_begin ≠ l.m_end) :
    l.next viaPlus = { l with m_begin := ⟨l.m_begin.cont, l.m_begin.pos + 1⟩ } := by
  cases viaPlus <;> simp [LeafView.next, LeafView.addAssign, LeafView.incr, h]

theorem safe_mk {α : Type} (s : Store α) (E i : Nat) (sub : Option LeafView) :
    FlatView.safe s ⟨E, some i, sub⟩
      ↔ E = s.length ∧ i ≤ s.length ∧ (i < s.length → ∀ l, sub = some l → l.liveOn s i) := by
  simp [FlatView.safe]

theorem read_live {α : Type} (s : Store α) (i : Nat) (l : LeafView)
    (hi : i < s.length) (hl : l.liveOn s i) : ∃ x, s.read l.m_begin = some x := by
  obtain ⟨hc, he, h0, hlt⟩ := hl
  rw [he] at hlt
  simp only [List.getElem?_eq_getElem hi, Option.getD_some] at hlt
  have hlt2 : l.m_begin.pos.toNat < (s[i]).length := by omega
  refine ⟨(s[i])[l.m_begin.pos.toNat], ?_⟩
  simp only [Store.read, h0, if_true, hc, List.getElem?_eq_getElem hi,
    List.getElem?_eq_getElem hlt2]

theorem ofRange_live {α : Type} (s : Store α) (hne : ∀ l ∈ s, l ≠ []) (i : Nat)
    (hi : i < s.length) : (LeafView.ofRange s i).liveOn s i := by
  have hmem : s[i] ∈ s := List.getElem_mem hi
  have hpos : 0 < (s[i]).length := List.length_pos.mpr (hne _ hmem)
  refine ⟨rfl, rfl, le_refl _, ?_⟩
  simp only [LeafView.ofRange, List.getElem?_eq_getElem hi, Option.getD_some]
  exact_mod_cast hpos

/-- Dereferencing a safe position that is not on the outer end is well-defined:
it returns a reference to an element, and the position stays safe. -/
theorem safe_deref {α : Type} (s : Store α) (hne : ∀ l ∈ s, l ≠ []) (v : FlatView) (i : Nat)
    (hv : v.safe s) (hb : v.m_range_begin = some i) (hi : i < s.length) :
    ∃ w x, v.deref s = some (w, (v.innerOr s i).m_begin)
      ∧ s.read (v.innerOr s i).m_begin = some x
      ∧ w.safe s ∧ w.m_range_begin = some i := by
  obtain ⟨E, b, sub⟩ := v
  simp only at hb
  subst hb
  rw [safe_mk] at hv
  obtain ⟨hE, hle, hlive⟩ := hv
  cases sub with
  | none =>
    have hl := ofRange_live s hne i hi
    obtain ⟨x, hx⟩ := read_live s i _ hi hl
    refine ⟨⟨E, some i, some (LeafView.ofRange s i)⟩, x, ?_, ?_, ?_, rfl⟩
    · simp [FlatView.deref, FlatView.emplace, hi, LeafView.derefCursor, LeafView.begin,
        FlatView.innerOr, hx]
    · simpa [FlatView.innerOr] using hx
    · rw [safe_mk]
      exact ⟨hE, hle, fun _ l h => by cases h; exact hl⟩
  | some l =>
    have hl := hlive hi l rfl
    obtain ⟨x, hx⟩ := read_live s i _ hi hl
    refine ⟨⟨E, some i, some l⟩, x, ?_, ?_, ?_, rfl⟩
    · simp [FlatView.deref, LeafView.derefCursor, LeafView.begin, FlatView.innerOr, hx]
    · simpa [FlatView.innerOr] using hx
    · rw [safe_mk]
      exact ⟨hE, hle, hlive⟩

/-- Advancing a safe position is well-defined and gives a safe position. -/
theorem safe_incr {α : Type} (viaPlus : Bool) (s : Store α) (hne : ∀ l ∈ s, l ≠ [])
    (v : FlatView) (hv : v.safe s) : ∃ w, v.incr viaPlus s = some w ∧ w.safe s := by
  obtain ⟨E, b, sub⟩ := v
  cases b with
  | none => simp [FlatView.safe] at hv
  | some i =>
    have hv0 := hv
    rw [safe_mk] at hv
    obtain ⟨hE, hle, hlive⟩ := hv
    subst hE
    by_cases hi : i = s.length
    · exact ⟨_, by simp [FlatView.incr, hi], hv0⟩
    · have hlt : i < s.length := lt_of_le_of_ne hle hi
      -- the state reached when the outer cursor is stepped
      have hstep : ∀ sub1 : Option LeafView,
          ∃ w, (if i + 1 = s.length then
                  some ({ m_range_end := s.length, m_range_begin := some (i + 1),
                          m_subrange := sub1 } : FlatView)
                else
                  match FlatView.emplace s (some (i + 1)) with
                  | some l => some { m_range_end := s.length, m_range_begin := some (i + 1),
                                     m_subrange := some l }
                  | none => none) = some w ∧ w.safe s := by
        intro sub1
        by_cases h1 : i + 1 = s.length
        · refine ⟨⟨s.length, some (i + 1), sub1⟩, by simp [h1], ?_⟩
          rw [safe_mk]
          exact ⟨rfl, by omega, fun h => by omega⟩
        · have h1lt : i + 1 < s.length := by omega
          refine ⟨⟨s.length, some (i + 1), some (LeafView.ofRange s (i + 1))⟩,
            by simp [h1, FlatView.emplace, h1lt], ?_⟩
          rw [safe_mk]
          exact ⟨rfl, by omega, fun _ l h => by cases h; exact ofRange_live s hne _ h1lt⟩
      cases sub with
      | none =>
        obtain ⟨w, hw, hsafe⟩ := hstep none
        exact ⟨w, by simpa [FlatView.incr, hi] using hw, hsafe⟩
      | some l =>
        have hl := hlive hlt l rfl
        obtain ⟨⟨c, p⟩, ⟨c2, q⟩⟩ := l
        obtain ⟨hc, he, h0, hpos⟩ := hl
        simp only at hc h0 hpos
        subst hc
        have hbe : (⟨⟨c, p⟩, ⟨c2, q⟩⟩ : LeafView).m_begin ≠ (⟨⟨c, p⟩, ⟨c2, q⟩⟩ : LeafView).m_end := by
          intro h
          have := congrArg Cursor.pos h
          simp only at this
          omega
        have hn := next_of_begin_ne viaPlus _ hbe
        simp only at hn
        have hc2 : c2 = c := by
          have := congrArg Cursor.cont he
          simpa using this
        subst hc2
        by_cases hex : p + 1 = q
        · obtain ⟨w, hw, hsafe⟩ := hstep (some (LeafView.next viaPlus ⟨⟨c2, p⟩, ⟨c2, q⟩⟩))
          refine ⟨w, ?_, hsafe⟩
          have hb : ((LeafView.next viaPlus ⟨⟨c2, p⟩, ⟨c2, q⟩⟩).begin
              == (LeafView.next viaPlus ⟨⟨c2, p⟩, ⟨c2, q⟩⟩).end) = true := by
            rw [hn]
            simp [LeafView.begin, LeafView.end, hex]
          simp only [FlatView.incr, hi, if_false, hb, if_true]
          exact hw
        · refine ⟨⟨s.length, some c2, some (LeafView.next viaPlus ⟨⟨c2, p⟩, ⟨c2, q⟩⟩)⟩, ?_, ?_⟩
          · have hb : ((LeafView.next viaPlus ⟨⟨c2, p⟩, ⟨c2, q⟩⟩).begin
                == (LeafView.next viaPlus ⟨⟨c2, p⟩, ⟨c2, q⟩⟩).end) = false := by
              rw [hn]
              simp [LeafView.begin, LeafView.end, hex]
            simp only [FlatView.incr, hi, if_false, hb]
            simp
          · rw [safe_mk]
            refine ⟨rfl, hle, fun _ l2 h => ?_⟩
            cases h
            rw [hn]
            refine ⟨rfl, he, by simp only; omega, ?_⟩
            simp only
            omega

theorem safe_eq_end {α : Type} (s : Store α) (v : FlatView) (i : Nat)
    (hv : v.safe s) (hb : v.m_range_begin = some i) :
    v.eq s v.end = some (i == s.length) := by
  obtain ⟨hE, _, _⟩ := hv
  simp [FlatView.eq, FlatView.end, hb, hE]

theorem safe_step {α : Type} (viaPlus : Bool) (s : Store α) (hne : ∀ l ∈ s, l ≠ [])
    (v : FlatView) (hv : v.safe s) (op : Op) :
    ∃ w, step viaPlus s v op = some w ∧ w.safe s := by
  cases op with
  | advance => exact safe_incr viaPlus s hne v hv
  | deref =>
    obtain ⟨i, hb⟩ : ∃ i, v.m_range_begin = some i := Option.isSome_iff_exists.mp hv.2.1
    have hle : i ≤ s.length := (hv.2.2 i hb).1
    by_cases hi : i = s.length
    · refine ⟨v, ?_, hv⟩
      simp [step, safe_eq_end s v i hv hb, hi]
    · have hlt : i < s.length := lt_of_le_of_ne hle hi
      obtain ⟨w, x, hd, _, hw, _⟩ := safe_deref s hne v i hv hb hlt
      refine ⟨w, ?_, hw⟩
      have hbf : (i == s.length) = false := beq_false_of_ne hi
      simp [step, safe_eq_end s v i hv hb, hbf, hd]

theorem safe_run {α : Type} (viaPlus : Bool) (s : Store α) (hne : ∀ l ∈ s, l ≠ [])
    (ops : List Op) (v : FlatView) (hv : v.safe s) :
    ∃ w, run viaPlus s ops v = some w ∧ w.safe s := by
  induction ops generalizing v with
  | nil => exact ⟨v, rfl, hv⟩
  | cons op ops ih =>
    obtain ⟨w, hw, hws⟩ := safe_step viaPlus s hne v hv op
    obtain ⟨u, hu, hus⟩ := ih w hws
    exact ⟨u, by simp [run, hw, hu], hus⟩

theorem safe_flat {α : Type} (s : Store α) : (flat s).safe s := by
  simp [flat, FlatView.ofRange, FlatView.safe]

/-- C13: for every sequence `s` of non-empty inner sequences and every
sequence `ops` of advances and of dereferences guarded by the comparison with
`end()`, running `ops` from a freshly constructed view does not fault and
reaches a position `w` whose outer cursor `i` is within `[begin, end]`; the
comparison of `w` with `end()` is well-defined; and whenever `w` is not equal
to `end()`, the inner view, if present, ranges over the outer element `i` with
its cursor on one of its elements (strictly before its end), and dereferencing
`w` is well-defined and returns a reference to an element of `s`. -/
theorem reachable_deref_safe {α : Type} (viaPlus : Bool) (s : Store α)
    (hne : ∀ l ∈ s, l ≠ []) (ops : List Op) :
    ∃ w i, run viaPlus s ops (flat s) = some w
      ∧ w.m_range_end = s.length ∧ w.m_range_begin = some i ∧ i ≤ s.length
      ∧ w.eq s w.end = some (i == s.length)
      ∧ (w.eq s w.end = some false →
          (∀ l, w.m_subrange = some l → l.liveOn s i)
          ∧ ∃ w1 r x, w.deref s = some (w1, r) ∧ s.read r = some x) := by
  obtain ⟨w, hw, hs⟩ := safe_run viaPlus s hne ops (flat s) (safe_flat s)
  obtain ⟨i, hb⟩ : ∃ i, w.m_range_begin = some i := Option.isSome_iff_exists.mp hs.2.1
  have hle : i ≤ s.length := (hs.2.2 i hb).1
  have he := safe_eq_end s w i hs hb
  refine ⟨w, i, hw, hs.1, hb, hle, he, ?_⟩
  intro hf
  rw [he] at hf
  have hi : i ≠ s.length := by
    intro h
    simp [h] at hf
  have hlt : i < s.length := lt_of_le_of_ne hle hi
  refine ⟨fun l hl => (hs.2.2 i hb).2 hlt l hl, ?_⟩
  obtain ⟨w1, x, hd, hx, _, _⟩ := safe_deref s hne w i hs hb hlt
  exact ⟨w1, _, x, hd, hx⟩

theorem reachable_deref_safe_witness :
    ∃ w i, run true [[1, 2], [3]] [Op.deref, Op.advance, Op.advance, Op.deref] (flat [[1, 2], [3]])
        = some w
      ∧ w.m_range_end = 2 ∧ w.m_range_begin = some i ∧ i ≤ 2
      ∧ w.eq [[1, 2], [3]] w.end = some (i == 2)
      ∧ (w.eq [[1, 2], [3]] w.end = some false →
          (∀ l, w.m_subrange = some l → l.liveOn [[1, 2], [3]] i)
          ∧ ∃ w1 r x, w.deref [[1, 2], [3]] = some (w1, r)
              ∧ Store.read [[1, 2], [3]] r = some x) :=
  reachable_deref_safe true [[1, 2], [3]] (by decide)
    [Op.deref, Op.advance, Op.advance, Op.deref]

theorem incrN_overshoot (k : Nat) (j : Int) (hj : 0 ≤ j) :
    FlatView.incrN true ([[1], []] : Store Nat) k ⟨2, some 1, some ⟨⟨1, j⟩, ⟨1, 0⟩⟩⟩
      = some ⟨2, some 1, some ⟨⟨1, j + k⟩, ⟨1, 0⟩⟩⟩ := by
  induction k generalizing j with
  | zero => simp [FlatView.incrN]
  | succ k ih =>
    have h1 : ¬ (j + 1 = 0) := by omega
    have hstep : FlatView.incr true ([[1], []] : Store Nat) ⟨2, some 1, some ⟨⟨1, j⟩, ⟨1, 0⟩⟩⟩
        = some ⟨2, some 1, some ⟨⟨1, j + 1⟩, ⟨1, 0⟩⟩⟩ := by
      simp [FlatView.incr, LeafView.next, LeafView.addAssign, LeafView.begin, LeafView.end, h1]
    rw [FlatView.incrN, hstep]
    simp only
    rw [ih (j + 1) (by omega)]
    have : j + 1 + (k : Int) = j + ((k + 1 : Nat) : Int) := by push_cast; omega
    rw [this]

/-- C14 (the code at the failing input): over `[[1],[]]`, with the inner view
stepped through `operator+=` (what `std::next` does on a random-access inner
view), a freshly constructed view advanced `n + 1` times, for any `n`, has its
outer cursor on the empty inner sequence and its inner cursor at index `n` of
it, past its end at index 0; the position is never equal to `end()`, in
particular not after 3 advances (1 element + 2 inner sequences). And however
the inner view is stepped, one advance followed by a dereference (guarded by
the comparison with `end()`) faults: it dereferences the exhausted inner view
on the empty inner sequence. -/
theorem advance_overshoots_empty_inner (n : Nat) :
    (∃ w, FlatView.incrN true ([[1], []] : Store Nat) (n + 1) (flat [[1], []]) = some w
      ∧ w = ⟨2, some 1, some ⟨⟨1, n⟩, ⟨1, 0⟩⟩⟩
      ∧ w.eq [[1], []] w.end = some false
      ∧ ¬ w.atEnd)
    ∧ ∀ viaPlus : Bool,
        run viaPlus ([[1], []] : Store Nat) [Op.advance, Op.deref] (flat [[1], []]) = none := by
  have h0 : FlatView.incr true ([[1], []] : Store Nat) (flat [[1], []])
      = some ⟨2, some 1, some ⟨⟨1, 0⟩, ⟨1, 0⟩⟩⟩ := by decide
  refine ⟨⟨⟨2, some 1, some ⟨⟨1, n⟩, ⟨1, 0⟩⟩⟩, ?_, rfl, by simp [FlatView.eq, FlatView.end],
    by simp [FlatView.atEnd]⟩, ?_⟩
  · rw [FlatView.incrN, h0]
    simp only
    rw [incrN_overshoot n 0 (le_refl _)]
    simp
  · intro viaPlus
    cases viaPlus <;> decide

/-- C15: for every sequence `s` of non-empty inner sequences and any two safe
positions `a`, `b` over it with `a` not equal to `end()` and `a == b` (both
inner views materialized, neither, or exactly one), `b` is not equal to `end()`
either, both dereferences are well-defined, and they return the same reference:
the same outer index and the same inner index, designating an element of `s`. -/
theorem eq_respects_deref {α : Type} (s : Store α) (hne : ∀ l ∈ s, l ≠ []) (a b : FlatView)
    (ha : a.safe s) (hb : b.safe s)
    (hae : a.eq s a.end = some false) (hab : a.eq s b = some true) :
    b.eq s b.end = some false
      ∧ ∃ a1 b1 r x, a.deref s = some (a1, r) ∧ b.deref s = some (b1, r)
          ∧ s.read r = some x := by
  obtain ⟨i, hai⟩ : ∃ i, a.m_range_begin = some i := Option.isSome_iff_exists.mp ha.2.1
  obtain ⟨j, hbj⟩ : ∃ j, b.m_range_begin = some j := Option.isSome_iff_exists.mp hb.2.1
  have hle : i ≤ s.length := (ha.2.2 i hai).1
  rw [safe_eq_end s a i ha hai] at hae
  have hi : i ≠ s.length := by
    intro h
    simp [h] at hae
  have hlt : i < s.length := lt_of_le_of_ne hle hi
  have hij : i = j := by
    by_contra h
    simp [FlatView.eq, hai, hbj, h] at hab
  subst hij
  have hinner : (a.innerOr s i).m_begin = (b.innerOr s i).m_begin := by
    cases hsa : a.m_subrange with
    | none =>
      cases hsb : b.m_subrange with
      | none => simp [FlatView.innerOr, hsa, hsb]
      | some r =>
        simp [FlatView.eq, hai, hbj, hsa, hsb, FlatView.elemBegin, hlt, LeafView.begin] at hab
        simp [FlatView.innerOr, hsa, hsb, LeafView.ofRange, hab]
    | some l =>
      cases hsb : b.m_subrange with
      | none =>
        simp [FlatView.eq, hai, hbj, hsa, hsb, FlatView.elemBegin, hlt, LeafView.begin] at hab
        simp [FlatView.innerOr, hsa, hsb, LeafView.ofRange, hab]
      | some r =>
        simp [FlatView.eq, hai, hbj, hsa, hsb, LeafView.begin] at hab
        simp [FlatView.innerOr, hsa, hsb, hab]
  obtain ⟨a1, x, hda, hxa, _, _⟩ := safe_deref s hne a i ha hai hlt
  obtain ⟨b1, y, hdb, _, _, _⟩ := safe_deref s hne b i hb hbj hlt
  refine ⟨?_, a1, b1, _, x, hda, ?_, hxa⟩
  · rw [safe_eq_end s b i hb hbj]
    simp [hi]
  · rw [hinner]
    exact hdb

theorem eq_respects_deref_witness :
    FlatView.eq [[1, 2], [3]] ⟨2, some 1, none⟩ (FlatView.end ⟨2, some 1, none⟩) = some false
      ∧ ∃ a1 b1 r x, FlatView.deref [[1, 2], [3]] ⟨2, some 1, some ⟨⟨1, 0⟩, ⟨1, 1⟩⟩⟩ = some (a1, r)
          ∧ FlatView.deref [[1, 2], [3]] ⟨2, some 1, none⟩ = some (b1, r)
          ∧ Store.read [[1, 2], [3]] r = some x :=
  eq_respects_deref [[1, 2], [3]] (by decide) ⟨2, some 1, some ⟨⟨1, 0⟩, ⟨1, 1⟩⟩⟩ ⟨2, some 1, none⟩
    (by decide) (by decide) (by decide) (by decide)

/-! ## Advancing to the end when the inner view is stepped by its guarded `operator++` -/

theorem incrN_add {α : Type} (viaPlus : Bool) (s : Store α) (m n : Nat) (v : FlatView) :
    FlatView.incrN viaPlus s (m + n) v
      = (FlatView.incrN viaPlus s m v).bind (FlatView.incrN viaPlus s n) := by
  induction m generalizing v with
  | zero => simp [FlatView.incrN]
  | succ m ih =>
    rw [Nat.succ_add]
    simp only [FlatView.incrN]
    cases h : v.incr viaPlus s with
    | none => simp
    | some w => simpa using ih w

theorem incrN_reaches_end_mono {α : Type} (viaPlus : Bool) (s : Store α) (k n : Nat)
    (v w : FlatView) (hk : FlatView.incrN viaPlus s k v = some w) (hw : w.atEnd) (hn : k ≤ n) :
    FlatView.incrN viaPlus s n v = some w := by
  obtain ⟨d, rfl⟩ : ∃ d, n = k + d := ⟨n - k, by omega⟩
  rw [incrN_add, hk]
  simpa using flat_incrN_at_end viaPlus s d w hw

/-- One guarded advance inside an inner sequence, at least two steps before
its end: the inner cursor moves one step. -/
theorem incr_guarded_inner {α : Type} (pre : List (List α)) (cur : List α)
    (post : List (List α)) (N : Nat) (p : Int)
    (hN : N = pre.length + 1 + post.length) (hp : p + 1 < cur.length) :
    FlatView.incr false (pre ++ cur :: post) (posAt N pre.length p cur.length)
      = some (posAt N pre.length (p + 1) cur.length) := by
  have hne : pre.length ≠ N := by omega
  have h1 : p ≠ cur.length := by omega
  have h2 : p + 1 ≠ cur.length := by omega
  simp [FlatView.incr, posAt, hne, LeafView.next, LeafView.incr, LeafView.begin, LeafView.end,
    h1, h2]

/-- One guarded advance on the last element of an inner sequence, or on an
exhausted inner view, with a further inner sequence behind it: the outer cursor
moves one step and the inner view is materialized at the begin of the next
inner sequence. -/
theorem incr_guarded_outer {α : Type} (pre : List (List α)) (cur q : List α)
    (post : List (List α)) (N : Nat) (p : Int)
    (hN : N = pre.length + 1 + (q :: post).length)
    (hp : p + 1 = cur.length ∨ p = cur.length) :
    FlatView.incr false (pre ++ cur :: q :: post) (posAt N pre.length p cur.length)
      = some (posAt N (pre.length + 1) 0 q.length) := by
  have hne : pre.length ≠ N := by simp at hN; omega
  have hne1 : pre.length + 1 ≠ N := by simp at hN; omega
  have hq : (pre ++ cur :: q :: post)[pre.length + 1]? = some q := by
    have := getElem?_mid (pre ++ [cur]) q post
    simpa using this
  rcases hp with hp | hp
  · have h1 : p ≠ cur.length := by omega
    simp [FlatView.incr, posAt, hne, hne1, LeafView.next, LeafView.incr, LeafView.begin,
      LeafView.end, h1, hp, FlatView.emplace, LeafView.ofRange, hq]
  · simp [FlatView.incr, posAt, hne, hne1, LeafView.next, LeafView.incr, LeafView.begin,
      LeafView.end, hp, FlatView.emplace, LeafView.ofRange, hq]

/-- One guarded advance on the last element of the last inner sequence, or on
its exhausted inner view: the outer cursor moves onto the outer end. -/
theorem incr_guarded_last {α : Type} (pre : List (List α)) (cur : List α) (N : Nat) (p : Int)
    (hN : N = pre.length + 1) (hp : p + 1 = cur.length ∨ p = cur.length) :
    ∃ w, FlatView.incr false (pre ++ [cur]) (posAt N pre.length p cur.length) = some w
      ∧ w.atEnd := by
  have hne : pre.length ≠ N := by omega
  refine ⟨⟨N, some N, some ⟨⟨pre.length, cur.length⟩, ⟨pre.length, cur.length⟩⟩⟩, ?_,
    Or.inr rfl⟩
  rcases hp with hp | hp
  · have h1 : p ≠ cur.length := by omega
    simp [FlatView.incr, posAt, hne, LeafView.next, LeafView.incr, LeafView.begin,
      LeafView.end, h1, hp, hN]
  · simp [FlatView.incr, posAt, hne, LeafView.next, LeafView.incr, LeafView.begin,
      LeafView.end, hp, hN]

/-- From a materialized position, guarded advances reach the end within the
number of elements left in the current inner sequence, plus one, plus the
number of elements and of inner sequences behind it. -/
theorem advance_from_guarded {α : Type} :
    ∀ (post : List (List α)) (d : Nat) (pre : List (List α)) (cur : List α) (N : Nat)
      (p : Int), N = pre.length + 1 + post.length → 0 ≤ p → p + d = cur.length →
      ∃ k w, k ≤ d + 1 + post.flatten.length + post.length
        ∧ FlatView.incrN false (pre ++ cur :: post) k (posAt N pre.length p cur.length) = some w
        ∧ w.atEnd := by
  intro post
  induction post with
  | nil =>
    intro d
    induction d with
    | zero =>
      intro pre cur N p hN _ hd
      obtain ⟨w, hw, he⟩ := incr_guarded_last pre cur N p (by simpa using hN)
        (Or.inr (by simpa using hd))
      exact ⟨1, w, by simp, by simp [FlatView.incrN, hw], he⟩
    | succ d ih =>
      intro pre cur N p hN h0 hd
      cases d with
      | zero =>
        obtain ⟨w, hw, he⟩ := incr_guarded_last pre cur N p (by simpa using hN)
          (Or.inl (by simpa using hd))
        exact ⟨1, w, by simp, by simp [FlatView.incrN, hw], he⟩
      | succ d =>
        have hs := incr_guarded_inner pre cur [] N p hN (by push_cast at hd; omega)
        obtain ⟨k, w, hk, hw, he⟩ := ih pre cur N (p + 1) hN (by omega)
          (by push_cast at hd ⊢; omega)
        exact ⟨k + 1, w, by simp at hk ⊢; omega, by simp [FlatView.incrN, hs, hw], he⟩
  | cons q post ihp =>
    intro d
    have houter : ∀ (pre : List (List α)) (cur : List α) (N : Nat) (p : Int),
        N = pre.length + 1 + (q :: post).length → (p + 1 = cur.length ∨ p = cur.length) →
        ∃ k w, k ≤ 1 + q.length + 1 + post.flatten.length + post.length
          ∧ FlatView.incrN false (pre ++ cur :: q :: post) k (posAt N pre.length p cur.length)
              = some w
          ∧ w.atEnd := by
      intro pre cur N p hN hp
      have hs := incr_guarded_outer pre cur q post N p hN hp
      obtain ⟨k, w, hk, hw, he⟩ := ihp q.length (pre ++ [cur]) q N 0
        (by simp at hN ⊢; omega) (le_refl _) (by simp)
      simp only [List.append_assoc, List.singleton_append, List.length_append,
        List.length_singleton] at hw
      exact ⟨k + 1, w, by omega, by simp [FlatView.incrN, hs, hw], he⟩
    induction d with
    | zero =>
      intro pre cur N p hN _ hd
      obtain ⟨k, w, hk, hw, he⟩ := houter pre cur N p hN (Or.inr (by simpa using hd))
      exact ⟨k, w, by simp at hk ⊢; omega, hw, he⟩
    | succ d ih =>
      intro pre cur N p hN h0 hd
      cases d with
      | zero =>
        obtain ⟨k, w, hk, hw, he⟩ := houter pre cur N p hN (Or.inl (by simpa using hd))
        exact ⟨k, w, by simp at hk ⊢; omega, hw, he⟩
      | succ d =>
        have hs := incr_guarded_inner pre cur (q :: post) N p hN (by push_cast at hd; omega)
        obtain ⟨k, w, hk, hw, he⟩ := ih pre cur N (p + 1) hN (by omega)
          (by push_cast at hd ⊢; omega)
        exact ⟨k + 1, w, by simp at hk ⊢; omega, by simp [FlatView.incrN, hs, hw], he⟩

/-- With the inner view stepped by its guarded `operator++` (an inner range
that is not random-access), advancing a freshly constructed view over any
sequence of sequences, empty inner sequences allowed, reaches a position equal
to `end()` within (number of elements + number of inner sequences) advances,
and stays there. -/
theorem advance_terminates_guarded {α : Type} (s : Store α) (n : Nat)
    (hn : s.flatten.length + s.length ≤ n) :
    ∃ w, FlatView.incrN false s n (flat s) = some w ∧ w.atEnd
      ∧ w.eq s w.end = some true := by
  have key : ∃ k w, k ≤ s.flatten.length + s.length
      ∧ FlatView.incrN false s k (flat s) = some w ∧ w.atEnd := by
    cases s with
    | nil => exact ⟨0, flat [], by simp, rfl, Or.inr rfl⟩
    | cons cur post =>
      cases post with
      | nil =>
        refine ⟨1, ⟨1, some 1, none⟩, by simp, ?_, Or.inr rfl⟩
        simp [FlatView.incrN, FlatView.incr, flat, FlatView.ofRange]
      | cons q post =>
        have hs : FlatView.incr false (cur :: q :: post) (flat (cur :: q :: post))
            = some (posAt (post.length + 2) 1 0 q.length) := by
          simp [FlatView.incr, flat, FlatView.ofRange, FlatView.emplace, LeafView.ofRange, posAt]
        obtain ⟨k, w, hk, hw, he⟩ := advance_from_guarded post q.length [cur] q
          (post.length + 2) 0 (by simp; omega) (le_refl _) (by simp)
        simp only [List.singleton_append, List.length_singleton] at hw
        exact ⟨k + 1, w, by simp at hk ⊢; omega, by simp [FlatView.incrN, hs, hw], he⟩
  obtain ⟨k, w, hk, hw, he⟩ := key
  refine ⟨w, incrN_reaches_end_mono false s k n (flat s) w hw he (by omega), he, ?_⟩
  rcases he with h | h <;> simp [FlatView.eq, FlatView.end, h]

/-! ## Stream-backed inner ranges -/

/-- With container iterators the reference designates storage of the range, and
the loop is the loop `rangeLoop`. -/
theorem rangeLoopOn_container {α σ : Type} (viaPlus : Bool) (body : α → σ → α × σ)
    (fuel : Nat) (s : Store α) (it e : FlatView) (acc : σ) :
    rangeLoopOn .container viaPlus body fuel s it e acc
      = rangeLoop viaPlus body fuel s it e acc := by
  induction fuel generalizing s it acc with
  | zero => rfl
  | succ fuel ih =>
    simp only [rangeLoopOn, rangeLoop, FlatView.derefRef]
    cases it.eq s e with
    | none => rfl
    | some b =>
      cases b with
      | true => rfl
      | false =>
        cases it.deref s with
        | none => rfl
        | some p =>
          obtain ⟨it1, r⟩ := p
          simp only [Store.readRef, Store.writeRef]
          cases s.read r with
          | none => rfl
          | some x =>
            simp only
            cases it1.incr viaPlus (s.write r (body x acc).1) with
            | none => rfl
            | some it2 => exact ih _ _ _

/-- C1 (the code at the failing input): the first test of the source (lines
296-309) flattens two stream-backed ranges yielding `1,2,3` and `4,5,6` and
expects the output `123456`. The position is not equal to `end()`, and the
first dereference returns a reference into the temporary `std::istream_iterator`
that `begin()` returned by value, destroyed when `operator*` returns; the loop
body reads through it: a fault, whatever fuel is given. Were the reference to
designate storage of the range, as with container iterators, the same loop
would finish with the output `123456`. -/
theorem stream_traversal_dangles (viaPlus : Bool) (fuel : Nat) :
    (flat [['1', '2', '3'], ['4', '5', '6']]).eq [['1', '2', '3'], ['4', '5', '6']]
        (flat [['1', '2', '3'], ['4', '5', '6']]).end = some false
      ∧ (flat [['1', '2', '3'], ['4', '5', '6']]).derefRef .stashing
          [['1', '2', '3'], ['4', '5', '6']]
        = some (⟨2, some 0, some ⟨⟨0, 0⟩, ⟨0, 3⟩⟩⟩, Ref.destroyed ⟨0, 0⟩)
      ∧ rangeForOn .stashing viaPlus emit (fuel + 1) [['1', '2', '3'], ['4', '5', '6']] [] = none
      ∧ rangeForOn .container viaPlus emit (fuel + 7) [['1', '2', '3'], ['4', '5', '6']] []
        = some ([['1', '2', '3'], ['4', '5', '6']], ['1', '2', '3', '4', '5', '6']) := by
  refine ⟨?_, ?_, ?_, ?_⟩
  · simp [flat, FlatView.ofRange, FlatView.eq, FlatView.end]
  · simp [flat, FlatView.ofRange, FlatView.derefRef, FlatView.deref, FlatView.emplace,
      LeafView.ofRange, LeafView.derefCursor, LeafView.begin, Store.read]
  · simp [rangeForOn, rangeLoopOn, flat, FlatView.ofRange, FlatView.begin, FlatView.eq,
      FlatView.end, FlatView.derefRef, FlatView.deref, FlatView.emplace, LeafView.ofRange,
      LeafView.derefCursor, LeafView.begin, Store.read, Store.readRef]
  · unfold rangeForOn
    rw [rangeLoopOn_container]
    have h := rangeFor_eq_sweepAll viaPlus emit [['1', '2', '3'], ['4', '5', '6']]
      (by simp) [] (fuel + 7) (by simp)
    unfold rangeFor at h
    rw [h, sweepAll_emit]
    simp

end flatlib
